import Mathlib

/-!
SmartCSV core: a shallow embedding of the data-cleaning pipeline
(src/etl.py, class ETLPipeline) and of the insight engine
(src/insights.py), together with proofs about them.

Modelling conventions:

* Floating-point arithmetic is idealised as exact rational arithmetic (ℚ).
  IEEE NaN is modelled by the missing marker / Option; IEEE infinities are
  outside the modelled cell domain (CSV numeric cells are finite), so the
  replace-infinities branch of validate_output never fires in the model.
* Quantities that are irrational in the source (standard deviation,
  skewness, Pearson r: all involve a square root) are carried by their
  exact squares together with a sign; comparisons such as abs(skew) > 1 or
  abs(r) > 0.7 are decided on the squares, which is equivalent.
* Datetimes are calendar triples (year, month, day); chronological order on
  real dates coincides with lexicographic order on the triple.
* Behaviour of external libraries that is not part of this repository is
  passed in as oracle parameters: pandas to_datetime on one cell (po),
  scipy pearsonr p-values (pOr), the seeded random row sampler (sa), and
  Python str() applied to a non-string cell (f).
* The transformation log, chart configurations and NLG sentences are
  modelled as inductive values carrying exactly the data that the source
  interpolates into the corresponding strings/dicts; colour palettes and
  string formatting are presentation and are not modelled.
-/

namespace SmartCSV

/- Rational arithmetic is marked irreducible upstream, which blocks the
decision procedures used to evaluate the concrete scenarios below;
restore the normal reducibility for this file. -/
set_option allowUnsafeReducibility true
attribute [local semireducible] Rat.add Rat.mul Rat.sub Rat.div Rat.inv Rat.neg

/-- A calendar date (year, month, day), the model of a pandas Timestamp.
For real dates, chronological order is lexicographic order on the triple. -/
structure Date where
  y : Int
  m : Int
  d : Int
deriving DecidableEq

/-- Chronological (lexicographic) order on dates. -/
def dateLe (a b : Date) : Bool :=
  if a.y < b.y then true
  else if b.y < a.y then false
  else if a.m < b.m then true
  else if b.m < a.m then false
  else decide (a.d ≤ b.d)

/-- A cell value: a finite number, a string, a datetime, or the
missing-value marker (NaN/NaT/None are all modelled by missing). -/
inductive Value where
  | num (q : ℚ)
  | str (s : String)
  | date (dt : Date)
  | missing
deriving DecidableEq

/-- The inferred storage dtype of a column: numeric (int/float/bool),
object (text), or datetime64. -/
inductive Dtype where
  | numeric
  | obj
  | datetime
deriving DecidableEq

/-- A named column: its pandas dtype and its cells, positionally aligned
with the other columns of the table. -/
structure Col where
  name : String
  dtype : Dtype
  vals : List Value
deriving DecidableEq

/-- A DataFrame: an ordered list of columns. -/
structure Table where
  cols : List Col
deriving DecidableEq

/-- len(df): the row count, read off the first column (0 for a
column-less frame). -/
def Table.nrows (t : Table) : Nat :=
  match t.cols with
  | [] => 0
  | c :: _ => c.vals.length

/-- Well-formedness: all columns have the same length. -/
def Table.wf (t : Table) : Prop :=
  ∀ c ∈ t.cols, c.vals.length = t.nrows

instance (t : Table) : Decidable t.wf := by
  unfold Table.wf; infer_instance

/-- df[name]: first column with the given name. -/
def Table.findCol (t : Table) (name : String) : Option Col :=
  t.cols.find? (fun c => c.name == name)

def Value.isMissingB : Value → Bool
  | .missing => true
  | _ => false

/-- Numeric view of a cell (pandas treats non-numbers in a numeric
column as absent). -/
def Value.toQ : Value → Option ℚ
  | .num q => some q
  | _ => none

def Value.toDate : Value → Option Date
  | .date d => some d
  | _ => none

/-- Row i of the table (cells across columns). -/
def Table.rowAt (t : Table) (i : Nat) : List Value :=
  t.cols.map (fun c => c.vals.getD i Value.missing)

/-- The rows of the table, in order. -/
def Table.rowsList (t : Table) : List (List Value) :=
  (List.range t.nrows).map t.rowAt

/-- Python round(): round half to even, to an integer. -/
def pyRoundZ (q : ℚ) : Int :=
  let f : Int := ⌊q⌋
  let r : ℚ := q - f
  if r < 1/2 then f
  else if 1/2 < r then f + 1
  else if 2 ∣ f then f else f + 1

/-- Python round(x, k): round half to even at k decimal digits. -/
def roundTo (k : Nat) (q : ℚ) : ℚ :=
  (pyRoundZ (q * 10 ^ k) : ℚ) / 10 ^ k

/-- Sum of a list of rationals. -/
def qsum (xs : List ℚ) : ℚ := xs.foldr (· + ·) 0

/-- Mean (NaN on the empty list is handled by the callers; ℚ division
by zero yields 0 here and every use either guards emptiness or models
the NaN case separately). -/
def meanQ (xs : List ℚ) : ℚ := qsum xs / xs.length

/-- Mean as pandas computes it: NaN (none) on an empty series. -/
def meanOpt (xs : List ℚ) : Option ℚ :=
  if xs.isEmpty then none else some (meanQ xs)

/-- Ascending sort of rationals (used by quantiles). -/
def sortQ (xs : List ℚ) : List ℚ :=
  List.insertionSort (fun a b => a ≤ b) xs

/-- Series.quantile(q) with linear interpolation on the non-missing
values, NaN (none) on an empty series: position h = q*(n-1); the result
interpolates between the floor and ceiling order statistics. -/
def quantileQ (q : ℚ) (xs : List ℚ) : Option ℚ :=
  let s := sortQ xs
  match s with
  | [] => none
  | _ :: _ =>
      let n := s.length
      let h : ℚ := q * ((n : ℚ) - 1)
      let i : Nat := (⌊h⌋).toNat
      let lo := s.getD i 0
      let hi := s.getD (min (i + 1) (n - 1)) 0
      some (lo + (h - (i : ℚ)) * (hi - lo))

/-- Sum of k-th powers of deviations from the mean. -/
def centralSum (k : Nat) (xs : List ℚ) : ℚ :=
  let m := meanQ xs
  qsum (xs.map (fun x => (x - m) ^ k))

/-- Square of the pandas (adjusted Fisher-Pearson) sample skewness
G1 = (n/((n-1)(n-2))) * m3 / s^3 with s^2 = m2tot/(n-1):
G1^2 = n^2 (n-1) m3tot^2 / ((n-2)^2 m2tot^3), where m2tot, m3tot are the
deviation power sums. Only meaningful when 3 ≤ n and m2tot ≠ 0. -/
def skewSqOf (xs : List ℚ) : ℚ :=
  let n : ℚ := xs.length
  (n ^ 2 * (n - 1) * centralSum 3 xs ^ 2) / ((n - 2) ^ 2 * centralSum 2 xs ^ 3)

/-- The test abs(Series.skew()) > thr as the source evaluates it:
skew is NaN when n < 3 (so the test is False), 0 when the variance is 0
(pandas zeroes the skew there, False for thr ≥ 0), and otherwise the test
is decided on the squares. -/
def skewExceeds (xs : List ℚ) (thr : ℚ) : Bool :=
  if xs.length < 3 then false
  else if centralSum 2 xs = 0 then false
  else decide (thr ^ 2 < skewSqOf xs)

/-- Sign of the skewness (sign of the third central moment; the other
factors of G1 are positive for n ≥ 3). -/
def skewSgnOf (xs : List ℚ) : Int :=
  if centralSum 3 xs > 0 then 1 else if centralSum 3 xs < 0 then -1 else 0

/-- Series.skew() represented exactly: none for NaN (n < 3); otherwise
(sign, square) with value 0 encoded as (0, 0) when the variance is 0. -/
def skewRep (xs : List ℚ) : Option (Int × ℚ) :=
  if xs.length < 3 then none
  else if centralSum 2 xs = 0 then some (0, 0)
  else some (skewSgnOf xs, skewSqOf xs)

/-- Series.kurtosis(): adjusted Fisher (excess) kurtosis, rational; none
for NaN (n < 4), 0 when the variance is 0 (pandas zeroes it there). -/
def kurtosisOpt (xs : List ℚ) : Option ℚ :=
  let n : ℚ := xs.length
  if xs.length < 4 then none
  else if centralSum 2 xs = 0 then some 0
  else
    some ((n * (n + 1) * (n - 1) * centralSum 4 xs) /
            ((n - 2) * (n - 3) * centralSum 2 xs ^ 2)
          - 3 * (n - 1) ^ 2 / ((n - 2) * (n - 3)))

/-- Sample variance m2tot/(n-1), the exact square of Series.std();
none for NaN (n < 2). -/
def varOpt (xs : List ℚ) : Option ℚ :=
  if xs.length < 2 then none
  else some (centralSum 2 xs / ((xs.length : ℚ) - 1))

def qminQ (xs : List ℚ) : ℚ := xs.foldr min (xs.headD 0)

def qmaxQ (xs : List ℚ) : ℚ := xs.foldr max (xs.headD 0)

/-- Whitespace stripped by Python str.strip(). -/
def isWs (c : Char) : Bool :=
  c == ' ' || c == '\t' || c == '\n' || c == '\r' || c == '\x0b' || c == '\x0c'

/-- Drop trailing characters satisfying p. -/
def dropTrailing (p : Char → Bool) (l : List Char) : List Char :=
  (l.reverse.dropWhile p).reverse

/-- Python str.strip() on a character list. -/
def wsStrip (l : List Char) : List Char :=
  dropTrailing isWs (l.dropWhile isWs)

/-- The character class [a-z0-9_] of the standardisation regex. -/
def allowedChar (c : Char) : Bool :=
  decide ('a' ≤ c ∧ c ≤ 'z') || decide ('0' ≤ c ∧ c ≤ '9') || c == '_'

/-- re.sub(r"[^a-z0-9_]", "_", ·) on a single character. -/
def underscoreChar (c : Char) : Char :=
  if allowedChar c then c else '_'

/-- re.sub(r"_+", "_", ·): collapse runs of underscores. -/
def collapseU : List Char → List Char
  | [] => []
  | [c] => [c]
  | a :: b :: r =>
      if a == '_' && b == '_' then collapseU (b :: r)
      else a :: collapseU (b :: r)

/-- str.strip("_"): drop leading and trailing underscores. -/
def stripU (l : List Char) : List Char :=
  dropTrailing (fun c => c == '_') (l.dropWhile (fun c => c == '_'))

/-- Step 1 name transform: strip, lowercase, replace characters outside
[a-z0-9_] with underscore, collapse underscore runs, strip underscores. -/
def stdName (s : String) : String :=
  String.mk (stripU (collapseU (((wsStrip s.data).map Char.toLower).map underscoreChar)))

/-- No two adjacent underscores. -/
def noDouble : List Char → Bool
  | [] => true
  | [_] => true
  | a :: b :: r => !(a == '_' && b == '_') && noDouble (b :: r)

/-- The invariant claimed for standardised names, with the character
class relaxed to allow the empty string: every character in [a-z0-9_],
no leading, trailing or doubled underscore. -/
def nameOkStar (s : String) : Prop :=
  (∀ c ∈ s.data, allowedChar c = true) ∧
  (∀ c, s.data.head? = some c → c ≠ '_') ∧
  (∀ c, s.data.getLast? = some c → c ≠ '_') ∧
  noDouble s.data = true

/-- The invariant exactly as claimed (regex ^[a-z0-9_]+$, so nonempty). -/
def nameOkPlus (s : String) : Prop :=
  nameOkStar s ∧ s ≠ ""

/-- config.SKEWNESS_THRESHOLD -/
def SKEWNESS_THRESHOLD : ℚ := 1

/-- config.IQR_MULTIPLIER -/
def IQR_MULTIPLIER : ℚ := 3 / 2

/-- config.DATETIME_MISSING_DROP_PCT -/
def DATETIME_MISSING_DROP_PCT : ℚ := 5

/-- config.TOP_N_CATEGORIES -/
def TOP_N_CATEGORIES : Nat := 10

/-- config.MAX_PIE_CATEGORIES -/
def MAX_PIE_CATEGORIES : Nat := 7

/-- config.CORRELATION_SIGNIFICANCE -/
def CORRELATION_SIGNIFICANCE : ℚ := 1 / 20

/-- One entry of the transformation log, carrying the data the source
interpolates into the logged string. -/
inductive LogEntry where
  | standardizedColumnNames (renamed : Nat)
  | trimmedStringFields (ncols : Nat)
  | removedDuplicates (rows : Nat)
  | filledMissingMedian (col : String) (n : Nat)
  | filledMissingMean (col : String) (n : Nat)
  | droppedMissingDatetime (col : String) (rows : Nat) (pct : ℚ)
  | forwardFilledDatetime (col : String) (n : Nat)
  | filledMissingMode (col : String) (n : Nat)
  | convertedToDatetime (cols : List String)
  | detectedOutliers (total : Nat) (ncols : Nat)
  | optimizedDtypes
  | extractedDateParts (col : String)
  | createdPricePerUnit
  | replacedInfinities (n : Nat)
  | droppedAllNullColumns (cols : List String)
deriving DecidableEq

/-- ETLPipeline.standardize_columns (etl.py lines 41-55).
rename_map is keyed by the (distinct) current column names; applying it
renames every column whose transformed name differs and logs the number
of map entries.  Renaming a column whose name is a fixed point of the
transform is the identity, so the renamed table maps every name through
stdName. -/
def standardize_columns (t : Table) : Table × List LogEntry :=
  let changed := ((t.cols.map Col.name).dedup).filter (fun n => stdName n != n)
  if changed.isEmpty then (t, [])
  else
    (⟨t.cols.map (fun c => { c with name := stdName c.name })⟩,
      [.standardizedColumnNames changed.length])

/-- Python str() of a cell as .astype(str) applies it: strings unchanged,
NaN prints as "nan", non-string cells via the oracle f. -/
def pyStrOf (f : Value → String) : Value → String
  | .str s => s
  | .missing => "nan"
  | v => f v

/-- One cell of trim_strings: astype(str), str.strip(), then the
replacement of "nan"/"None"/"" by NaN (etl.py lines 62-64). -/
def trimCell (f : Value → String) (v : Value) : Value :=
  let s := String.mk (wsStrip (pyStrOf f v).data)
  if s = "nan" ∨ s = "None" ∨ s = "" then .missing else .str s

/-- ETLPipeline.trim_strings (etl.py lines 58-68): every object column is
mapped cell-wise by trimCell; the entry is logged whenever there is at
least one object column. -/
def trim_strings (f : Value → String) (t : Table) : Table × List LogEntry :=
  let nObj := (t.cols.filter (fun c => c.dtype == Dtype.obj)).length
  let t2 : Table :=
    ⟨t.cols.map (fun c =>
      if c.dtype == Dtype.obj then { c with vals := c.vals.map (trimCell f) } else c)⟩
  (t2, if nObj = 0 then [] else [.trimmedStringFields nObj])

/-- For each row (in order), whether it is the first occurrence of its
value pattern; seen accumulates the rows already passed. -/
def firstOccMask (seen : List (List Value)) : List (List Value) → List Bool
  | [] => []
  | r :: rs => (decide (r ∉ seen)) :: firstOccMask (r :: seen) rs

/-- Keep the entries of vs whose mask bit is true. -/
def applyMask (m : List Bool) (vs : List Value) : List Value :=
  ((m.zip vs).filter (fun p => p.1)).map (fun p => p.2)

/-- ETLPipeline.remove_duplicates (etl.py lines 71-79): drop exact
duplicate rows keeping the first occurrence, re-index, log if any were
removed. -/
def remove_duplicates (t : Table) : Table × List LogEntry :=
  let m := firstOccMask [] t.rowsList
  let t2 : Table := ⟨t.cols.map (fun c => { c with vals := applyMask m c.vals })⟩
  let removed := t.nrows - t2.nrows
  (t2, if removed = 0 then [] else [.removedDuplicates removed])

/-- Forward fill: each missing cell takes the last preceding non-missing
value (missing while none has occurred). -/
def ffillGo (last : Value) : List Value → List Value
  | [] => []
  | v :: vs => if v = .missing then last :: ffillGo last vs else v :: ffillGo v vs

def ffill (vs : List Value) : List Value := ffillGo .missing vs

/-- Keep only the rows of the table whose cell in column name is
non-missing (df.dropna(subset=[name]) with re-index). -/
def dropMissingRows (t : Table) (name : String) : Table :=
  match t.findCol name with
  | none => t
  | some c =>
      let m := c.vals.map (fun v => !v.isMissingB)
      ⟨t.cols.map (fun c2 => { c2 with vals := applyMask m c2.vals })⟩

/-- Replace vs at column name. -/
def Table.setVals (t : Table) (name : String) (vs : List Value) : Table :=
  ⟨t.cols.map (fun c => if c.name == name then { c with vals := vs } else c)⟩

/-- pandas sorting order on cells (used by Series.mode() and by sorted
groupby keys); on values of one type it is the natural order. -/
def valueLe (a b : Value) : Bool :=
  match a, b with
  | .num x, .num y => decide (x ≤ y)
  | .str x, .str y => decide (x ≤ y)
  | .date x, .date y => dateLe x y
  | .num _, _ => true
  | _, .num _ => false
  | .str _, _ => true
  | _, .str _ => false
  | .date _, _ => true
  | _, .date _ => false
  | .missing, .missing => true

/-- Most frequent value, as Series.mode().iloc[0]: among the non-missing
values with maximal count, the least in pandas sorted order; none when no
non-missing value exists. -/
def modeVal (vs : List Value) : Option Value :=
  let nn := vs.filter (fun v => !v.isMissingB)
  let ds := nn.dedup
  let mx := (ds.map (fun v => nn.count v)).foldr max 0
  let cands := ds.filter (fun v => nn.count v == mx)
  (List.insertionSort (fun a b => valueLe a b = true) cands).head?

/-- One iteration of the handle_missing_values loop (etl.py lines
84-124) for the column called name, on the current table. -/
def imputeCol (t : Table) (name : String) : Table × List LogEntry :=
  match t.findCol name with
  | none => (t, [])
  | some c =>
      let missing := c.vals.countP Value.isMissingB
      if missing = 0 then (t, [])
      else
        match c.dtype with
        | .numeric =>
            let xs := c.vals.filterMap Value.toQ
            let useMedian := skewExceeds xs SKEWNESS_THRESHOLD
            let fill : Option ℚ := if useMedian then quantileQ (1/2) xs else meanOpt xs
            let newVals := c.vals.map (fun v =>
              if v.isMissingB then
                match fill with
                | some q => Value.num q
                | none => Value.missing
              else v)
            (t.setVals name newVals,
              [if useMedian then .filledMissingMedian name missing
               else .filledMissingMean name missing])
        | .datetime =>
            let pct : ℚ := (missing : ℚ) / (t.nrows : ℚ) * 100
            if pct < DATETIME_MISSING_DROP_PCT then
              (dropMissingRows t name, [.droppedMissingDatetime name missing pct])
            else
              (t.setVals name (ffill c.vals), [.forwardFilledDatetime name missing])
        | .obj =>
            match modeVal c.vals with
            | none => (t, [])
            | some mv =>
                let newVals := c.vals.map (fun v => if v.isMissingB then mv else v)
                (t.setVals name newVals, [.filledMissingMode name missing])

/-- Fold of imputeCol over a snapshot of column names, threading the
table and accumulating the log. -/
def imputeFold (acc : Table × List LogEntry) : List String → Table × List LogEntry
  | [] => acc
  | n :: ns =>
      let r := imputeCol acc.1 n
      imputeFold (r.1, acc.2 ++ r.2) ns

/-- ETLPipeline.handle_missing_values (etl.py lines 82-124): per-column
imputation over a snapshot of the column names. -/
def handle_missing_values (t : Table) : Table × List LogEntry :=
  imputeFold (t, []) (t.cols.map Col.name)

/-- pd.to_datetime(·, errors="coerce") on one cell: missing stays NaT,
otherwise the parse oracle po decides success. -/
def convertCell (po : Value → Option Date) (v : Value) : Value :=
  if v.isMissingB then .missing
  else
    match po v with
    | some d => .date d
    | none => .missing

/-- One iteration of the convert_dates loop (etl.py lines 131-142) for
an object column: sample the first 50 non-missing values; convert the
whole column to datetime when more than 60 percent of the sample
parses. -/
def convertColStep (po : Value → Option Date) (t : Table) (name : String) :
    Table × List String :=
  match t.findCol name with
  | none => (t, [])
  | some c =>
      let sample := (c.vals.filter (fun v => !v.isMissingB)).take 50
      if sample.isEmpty then (t, [])
      else
        let ok := sample.countP (fun v => (po v).isSome)
        if (6 : ℚ) / 10 < (ok : ℚ) / (sample.length : ℚ) then
          (⟨t.cols.map (fun c2 =>
              if c2.name == name then
                { c2 with dtype := .datetime, vals := c2.vals.map (convertCell po) }
              else c2)⟩,
            [name])
        else (t, [])

def convertFold (po : Value → Option Date) (acc : Table × List String) :
    List String → Table × List String
  | [] => acc
  | n :: ns =>
      let r := convertColStep po acc.1 n
      convertFold po (r.1, acc.2 ++ r.2) ns

/-- ETLPipeline.convert_dates (etl.py lines 127-147). -/
def convert_dates (po : Value → Option Date) (t : Table) : Table × List LogEntry :=
  let r := convertFold po (t, []) ((t.cols.filter (fun c => c.dtype == Dtype.obj)).map Col.name)
  (r.1, if r.2.isEmpty then [] else [.convertedToDatetime r.2])

/-- The IQR outlier test on one cell: strictly outside
[lower, upper]; missing cells compare False. -/
def outlierCell (lower upper : ℚ) (v : Value) : Bool :=
  match v.toQ with
  | some q => decide (q < lower) || decide (upper < q)
  | none => false

/-- df[name] = vs, overwriting an existing column or appending a new
numeric one at the end. -/
def Table.setColOrAppend (t : Table) (name : String) (vs : List Value) : Table :=
  if (t.findCol name).isSome then t.setVals name vs
  else ⟨t.cols ++ [⟨name, .numeric, vs⟩]⟩

/-- Replace or add an entry in an association list (dict assignment). -/
def updateAssoc (l : List (String × Nat)) (k : String) (v : Nat) : List (String × Nat) :=
  if l.any (fun p => p.1 == k) then
    l.map (fun p => if p.1 == k then (k, v) else p)
  else l ++ [(k, v)]

/-- One iteration of the detect_outliers loop (etl.py lines 153-165):
quantiles of the non-missing values; skip when IQR is 0 (and when the
column is empty both quantiles are NaN, every comparison is False and
the count is 0, the same outcome); flag and count when any cell is
outside the fences. -/
def outlierStep (acc : Table × List (String × Nat)) (name : String) :
    Table × List (String × Nat) :=
  match acc.1.findCol name with
  | none => acc
  | some c =>
      let xs := c.vals.filterMap Value.toQ
      match quantileQ (1/4) xs, quantileQ (3/4) xs with
      | some q1, some q3 =>
          let iqr := q3 - q1
          if iqr = 0 then acc
          else
            let lower := q1 - IQR_MULTIPLIER * iqr
            let upper := q3 + IQR_MULTIPLIER * iqr
            let mask := c.vals.map (outlierCell lower upper)
            let count := mask.countP (fun b => b)
            if count = 0 then acc
            else
              (acc.1.setColOrAppend ("is_outlier_" ++ name)
                  (mask.map (fun b => Value.num (if b then 1 else 0))),
                updateAssoc acc.2 name count)
      | _, _ => acc

def outlierFold (acc : Table × List (String × Nat)) :
    List String → Table × List (String × Nat)
  | [] => acc
  | n :: ns => outlierFold (outlierStep acc n) ns

/-- ETLPipeline.detect_outliers (etl.py lines 150-169), returning the
table, the log, and the outlier_counts mapping. -/
def detect_outliers (t : Table) : Table × List LogEntry × List (String × Nat) :=
  let numCols := (t.cols.filter (fun c => c.dtype == Dtype.numeric)).map Col.name
  let r := outlierFold (t, []) numCols
  (r.1,
    (if r.2.isEmpty then []
     else [.detectedOutliers (qsumN (r.2.map Prod.snd)) r.2.length]),
    r.2)
where
  qsumN (l : List Nat) : Nat := l.foldr (· + ·) 0

/-- ETLPipeline.optimize_dtypes (etl.py lines 172-179): numeric downcast
changes only storage width, not values (spec 4.1 step 7 calls it
non-semantic), so it is the identity on the data; it always logs once. -/
def optimize_dtypes (t : Table) : Table × List LogEntry :=
  (t, [.optimizedDtypes])

/-- dt.year / dt.month / dt.day on one cell (NaN for NaT). -/
def datePart (sel : Date → Int) (v : Value) : Value :=
  match v with
  | .date d => .num (sel d)
  | _ => .missing

/-- The date-part phase of feature_engineering: for each datetime column
add year/month/day columns and log one entry per column. -/
def datePartsFold (acc : Table × List LogEntry) : List String → Table × List LogEntry
  | [] => acc
  | n :: ns =>
      match acc.1.findCol n with
      | none => datePartsFold acc ns
      | some c =>
          let t1 := acc.1.setColOrAppend (n ++ "_year") (c.vals.map (datePart Date.y))
          let t2 := t1.setColOrAppend (n ++ "_month") (c.vals.map (datePart Date.m))
          let t3 := t2.setColOrAppend (n ++ "_day") (c.vals.map (datePart Date.d))
          datePartsFold (t3, acc.2 ++ [.extractedDateParts n]) ns

/-- str.lower() (character-wise, as the names in play are ASCII). -/
def strLower (s : String) : String := String.mk (s.data.map Char.toLower)

/-- cols_lower.get(key): the dict comprehension keeps, for each lowered
name, the last column with that lowering. -/
def lowerLookup (names : List String) (key : String) : Option String :=
  (names.filter (fun n => strLower n == key)).getLast?

/-- The price_per_unit phase of feature_engineering (etl.py lines
191-200): on rows whose quantity cell is not the number 0 (a missing
quantity also passes the != 0 mask, as NaN != 0 does), price divided by
quantity (missing when either operand is missing); other rows keep the
previous price_per_unit cell when the column existed, else missing. -/
def pricePerUnit (t : Table) : Table × List LogEntry :=
  let names := t.cols.map Col.name
  let priceCol := (lowerLookup names "price").orElse (fun _ => lowerLookup names "total_price")
  let qtyCol := (lowerLookup names "quantity").orElse (fun _ => lowerLookup names "qty")
  match priceCol, qtyCol with
  | some pn, some qn =>
      match t.findCol pn, t.findCol qn with
      | some pc, some qc =>
          if pc.dtype == Dtype.numeric && qc.dtype == Dtype.numeric then
            let base : List Value :=
              match t.findCol "price_per_unit" with
              | some old => old.vals
              | none => List.replicate t.nrows Value.missing
            let newVals := (List.range t.nrows).map (fun i =>
              if qc.vals.getD i .missing != Value.num 0 then
                match (pc.vals.getD i .missing).toQ, (qc.vals.getD i .missing).toQ with
                | some p, some q => Value.num (p / q)
                | _, _ => Value.missing
              else base.getD i .missing)
            (t.setColOrAppend "price_per_unit" newVals, [.createdPricePerUnit])
          else (t, [])
      | _, _ => (t, [])
  | _, _ => (t, [])

/-- ETLPipeline.feature_engineering (etl.py lines 182-200). -/
def feature_engineering (t : Table) : Table × List LogEntry :=
  let dtCols := (t.cols.filter (fun c => c.dtype == Dtype.datetime)).map Col.name
  let r1 := datePartsFold (t, []) dtCols
  let r2 := pricePerUnit r1.1
  (r2.1, r1.2 ++ r2.2)

/-- ETLPipeline.validate_output (etl.py lines 203-215).  Rational cells
carry no IEEE infinities, so the replace-infinities branch counts 0 and
never logs in the model; columns that are entirely missing (vacuously
including every column of a zero-row table, as pandas isna().all() is
True on an empty column) are dropped. -/
def validate_output (t : Table) : Table × List LogEntry :=
  let nullCols := (t.cols.filter (fun c => c.vals.all Value.isMissingB)).map Col.name
  if nullCols.isEmpty then (t, [])
  else
    (⟨t.cols.filter (fun c => !c.vals.all Value.isMissingB)⟩,
      [.droppedAllNullColumns nullCols])

/-- ETLPipeline.run (etl.py lines 218-235): the nine steps in order,
threading the table and concatenating the transformation log. -/
def run (f : Value → String) (po : Value → Option Date) (t : Table) :
    Table × List LogEntry :=
  let s1 := standardize_columns t
  let s2 := trim_strings f s1.1
  let s3 := remove_duplicates s2.1
  let s4 := handle_missing_values s3.1
  let s5 := convert_dates po s4.1
  let s6 := detect_outliers s5.1
  let s7 := optimize_dtypes s6.1
  let s8 := feature_engineering s7.1
  let s9 := validate_output s8.1
  (s9.1, s1.2 ++ s2.2 ++ s3.2 ++ s4.2 ++ s5.2 ++ s6.2.1 ++ s7.2 ++ s8.2 ++ s9.2)

/-- The column classification (insights.py lines 28-47): columns whose
name starts with is_outlier_ are skipped; the dtype decides the group
(the if/elif chain coincides with a partition by dtype, the dtypes being
exclusive). -/
structure ColTypes where
  numeric : List String
  categorical : List String
  datetime : List String
deriving DecidableEq

def classify_columns (t : Table) : ColTypes :=
  let ks := t.cols.filter (fun c => !("is_outlier_".data.isPrefixOf c.name.data))
  { numeric := (ks.filter (fun c => c.dtype == Dtype.numeric)).map Col.name
    categorical := (ks.filter (fun c => c.dtype == Dtype.obj)).map Col.name
    datetime := (ks.filter (fun c => c.dtype == Dtype.datetime)).map Col.name }

/-- Integer square root by Newton iteration with explicit fuel
(structurally recursive, so that closed proofs can evaluate it): the
iterate starts at m, stays at or above the floor square root, and
strictly decreases until it reaches it; the fuel m is ample. -/
def isqrtAux (m : Nat) : Nat → Nat → Nat
  | 0, g => g
  | fuel + 1, g =>
      let g2 := (g + m / g) / 2
      if g2 < g then isqrtAux m fuel g2 else g

def isqrt (m : Nat) : Nat :=
  if m ≤ 1 then m else isqrtAux m m m

/-- Round half to even of the square root of a nonnegative rational, as
an integer: the model of round(float(sqrt-valued quantity)).  The floor
of the root is the integer square root of the floor; the half-even tie
applies when the root lands exactly on a half-integer. -/
def sqrtRoundInt (s : ℚ) : Int :=
  let b : Int := (isqrt (max 0 ⌊s⌋).toNat : Int)
  if s < ((b : ℚ) + 1/2) ^ 2 then b
  else if ((b : ℚ) + 1/2) ^ 2 < s then b + 1
  else if 2 ∣ b then b else b + 1

/-- round(sqrt(sq), 4) for a nonnegative rational sq: the exact value of
the 4-decimal rounding of the square root. -/
def sqrtRound4 (sq : ℚ) : ℚ :=
  (sqrtRoundInt (10 ^ 8 * sq) : ℚ) / 10 ^ 4

/-- round(float(Series.skew()), 4) represented exactly: none for NaN
(n < 3), 0 when the variance is 0, otherwise the signed rounded root of
the exact skewness square. -/
def skewR4 (xs : List ℚ) : Option ℚ :=
  if xs.length < 3 then none
  else if centralSum 2 xs = 0 then some 0
  else some ((skewSgnOf xs : ℚ) * sqrtRound4 (skewSqOf xs))

/-- round(float(Series.std()), 4) represented exactly (none for NaN). -/
def stdR4 (xs : List ℚ) : Option ℚ :=
  (varOpt xs).map sqrtRound4

/-- One record of descriptive_stats (insights.py lines 69-80); every
field holds exactly the reported (already rounded) number, with none
modelling NaN. -/
structure StatRecord where
  column : String
  count : Nat
  mean : ℚ
  median : ℚ
  std : Option ℚ
  min : ℚ
  max : ℚ
  skewness : Option ℚ
  kurtosis : Option ℚ
  missing_pct : ℚ
deriving DecidableEq

/-- The record descriptive_stats emits for one column: the column is
dropped entirely when no non-missing value remains (insights.py lines
66-68). -/
def statFor (t : Table) (name : String) : Option StatRecord :=
  match t.findCol name with
  | none => none
  | some c =>
      let series := c.vals.filterMap Value.toQ
      if series.isEmpty then none
      else
        some
          { column := name
            count := series.length
            mean := roundTo 4 (meanQ series)
            median := roundTo 4 ((quantileQ (1/2) series).getD 0)
            std := stdR4 series
            min := roundTo 4 (qminQ series)
            max := roundTo 4 (qmaxQ series)
            skewness := skewR4 series
            kurtosis := (kurtosisOpt series).map (roundTo 4)
            missing_pct :=
              roundTo 2 ((c.vals.countP Value.isMissingB : ℚ) / (t.nrows : ℚ) * 100) }

/-- insights.py descriptive_stats (lines 54-81). -/
def descriptive_stats (t : Table) (numericCols : List String) : List StatRecord :=
  numericCols.filterMap (statFor t)

/-- A Pearson correlation value r = num / sqrt(den2), carried exactly by
the covariance sum and the product of the deviation-square sums
(den2 = 0 models the NaN produced for a zero-variance column). -/
structure CorrVal where
  num : ℚ
  den2 : ℚ
deriving DecidableEq

/-- The square of r (total ℚ division: 0 when den2 = 0, matching the
False outcome of every NaN comparison). -/
def CorrVal.keyQ (v : CorrVal) : ℚ := v.num ^ 2 / v.den2

/-- The represented r equals 1. -/
def CorrVal.isOne (v : CorrVal) : Prop := 0 < v.num ∧ v.num ^ 2 = v.den2

instance : DecidablePred CorrVal.isOne := fun v => by
  unfold CorrVal.isOne; infer_instance

/-- round(float(abs r), 4) represented exactly. -/
def CorrVal.absR4 (v : CorrVal) : ℚ := sqrtRound4 v.keyQ

/-- round(float(r), 4) represented exactly (half-even rounding commutes
with negation). -/
def CorrVal.r4 (v : CorrVal) : ℚ :=
  (if v.num < 0 then -1 else 1) * v.absR4

/-- The complete-case subset df[cols].dropna(): the rows (in order) in
which every listed column is numeric-valued. -/
def completeRows (t : Table) (cols : List String) : List (List ℚ) :=
  (List.range t.nrows).filterMap (fun i =>
    let vs := cols.map (fun n => (t.findCol n).bind (fun c => (c.vals.getD i .missing).toQ))
    if vs.all Option.isSome then some (vs.map (fun o => o.getD 0)) else none)

/-- One column of the complete-case subset. -/
def subsetCol (t : Table) (cols : List String) (c : String) : List ℚ :=
  (completeRows t cols).map (fun r => r.getD (cols.indexOf c) 0)

/-- Pearson correlation of two equal-length series, as the exact pair
(covariance sum, product of deviation-square sums). -/
def corrPair (xs ys : List ℚ) : CorrVal :=
  let mx := meanQ xs
  let my := meanQ ys
  ⟨qsum ((xs.zip ys).map (fun p => (p.1 - mx) * (p.2 - my))),
    qsum (xs.map (fun x => (x - mx) ^ 2)) * qsum (ys.map (fun y => (y - my) ^ 2))⟩

/-- One entry of significant_pairs; corr is stored unrounded (the report
shows CorrVal.r4 of it), p is the stored round(p, 6). -/
structure SigPair where
  col1 : String
  col2 : String
  corr : CorrVal
  p : ℚ
deriving DecidableEq

structure CorrOut where
  matrix : List (String × List (String × CorrVal))
  significant_pairs : List SigPair
deriving DecidableEq

/-- The ordered (i, j) pairs with i before j, as the double loop of
insights.py lines 107-111 enumerates them. -/
def allPairs : List String → List (String × String)
  | [] => []
  | c :: cs => (cs.map (fun c2 => (c, c2))) ++ allPairs cs

/-- The significance loop (insights.py lines 105-122), threading the
seen set; the oracle pOr returns the scipy pearsonr p-value on the two
subset columns, none modelling the swallowed per-pair exception (and a
NaN p-value, for which the comparison is likewise False). -/
def sigFold (pOr : List ℚ → List ℚ → Option ℚ) (t : Table) (cols : List String)
    (acc : List (String × String) × List SigPair) :
    List (String × String) → List SigPair
  | [] => acc.2
  | (c1, c2) :: rest =>
      if (c1, c2) ∈ acc.1 then sigFold pOr t cols acc rest
      else
        let seen := (c1, c2) :: acc.1
        match pOr (subsetCol t cols c1) (subsetCol t cols c2) with
        | none => sigFold pOr t cols (seen, acc.2) rest
        | some p =>
            if p < CORRELATION_SIGNIFICANCE then
              sigFold pOr t cols
                (seen,
                  acc.2 ++ [⟨c1, c2, corrPair (subsetCol t cols c1) (subsetCol t cols c2),
                    roundTo 6 p⟩])
                rest
            else sigFold pOr t cols (seen, acc.2) rest

/-- insights.py correlation_matrix (lines 88-125): empty on fewer than
two numeric columns; the matrix is the full pairwise Pearson matrix on
the global complete-case subset; significant pairs are filtered by
p < significance and sorted descending by the absolute value of the
(reported, 4-decimal) correlation, by a stable sort. -/
def correlation_matrix (pOr : List ℚ → List ℚ → Option ℚ) (t : Table)
    (cols : List String) : CorrOut :=
  if cols.length < 2 then ⟨[], []⟩
  else
    ⟨cols.map (fun c1 =>
        (c1, cols.map (fun c2 => (c2, corrPair (subsetCol t cols c1) (subsetCol t cols c2))))),
      List.insertionSort (fun a b : SigPair => b.corr.absR4 ≤ a.corr.absR4)
        (sigFold pOr t cols ([], []) (allPairs cols))⟩

/-- Nested-dict lookup in the correlation matrix. -/
def mLookup (m : List (String × List (String × CorrVal))) (a b : String) :
    Option CorrVal :=
  ((m.find? (fun p => p.1 == a)).map Prod.snd).bind
    (fun row => (row.find? (fun p => p.1 == b)).map Prod.snd)

/-- np.histogram bin edges: bins+1 evenly spaced edges over the range
(degenerate ranges are widened by 0.5 on both sides, as numpy does). -/
def histRange (xs : List ℚ) : ℚ × ℚ :=
  let mn := qminQ xs
  let mx := qmaxQ xs
  if mn = mx then (mn - 1/2, mx + 1/2) else (mn, mx)

def histEdges (lo hi : ℚ) (bins : Nat) : List ℚ :=
  (List.range (bins + 1)).map (fun i => lo + i * (hi - lo) / bins)

/-- np.histogram counts: half-open bins, the last bin closed. -/
def histCounts (xs : List ℚ) (bins : Nat) : List Nat :=
  let r := histRange xs
  let es := histEdges r.1 r.2 bins
  (List.range bins).map (fun i =>
    xs.countP (fun x =>
      decide (es.getD i 0 ≤ x) &&
        (decide (x < es.getD (i + 1) 0) ||
          (i == bins - 1 && decide (x ≤ es.getD (i + 1) 0)))))

/-- ceil for the Freedman-Diaconis bin count, capped at 50: the least
k ≥ 1 with A*n^(1/3) ≤ k, decided on cubes (A3n = A^3 * n); the cap
applies when no k ≤ 50 qualifies. -/
def fdBinsCeil (A3n : ℚ) : Nat :=
  match (List.range 51).find? (fun k => decide ((1 : Nat) ≤ k) && decide (A3n ≤ (k : ℚ) ^ 3)) with
  | some k => k
  | none => 50

/-- The bin count of distribution_analysis (insights.py lines 150-157):
Freedman-Diaconis when the IQR is positive (bin width 2*iqr*n^(-1/3),
count ceil(range/width), floored at 1, capped at 50), else sqrt(n)
bins. -/
def distBinCount (xs : List ℚ) : Nat :=
  let q1 := (quantileQ (1/4) xs).getD 0
  let q3 := (quantileQ (3/4) xs).getD 0
  let iqr := q3 - q1
  if 0 < iqr then
    fdBinsCeil (((qmaxQ xs - qminQ xs) / (2 * iqr)) ^ 3 * (xs.length : ℚ))
  else min 50 (max 1 (isqrt xs.length))

/-- One distribution record; bin labels are the edge pairs (the report
formats them to 2 decimals). -/
structure DistRecord where
  column : String
  bins : List (ℚ × ℚ)
  counts : List Nat
  n_bins : Nat
deriving DecidableEq

/-- insights.py distribution_analysis (lines 132-168); in the rational
model the per-column computation cannot raise, so the exception path is
never taken. -/
def distribution_analysis (t : Table) (numericCols : List String) : List DistRecord :=
  numericCols.filterMap (fun name =>
    match t.findCol name with
    | none => none
    | some c =>
        let series := c.vals.filterMap Value.toQ
        if series.length < 2 then none
        else
          let nb := distBinCount series
          let r := histRange series
          let es := histEdges r.1 r.2 nb
          some
            { column := name
              bins := (List.range nb).map (fun i => (es.getD i 0, es.getD (i + 1) 0))
              counts := histCounts series nb
              n_bins := nb })

/-- Distinct elements keeping the first occurrence. -/
def distinctFirstAux {α : Type} [DecidableEq α] (seen : List α) : List α → List α
  | [] => []
  | v :: r => if v ∈ seen then distinctFirstAux seen r else v :: distinctFirstAux (v :: seen) r

/-- Series.value_counts(): non-missing values with their counts, sorted
by count descending by a stable sort (ties in order of first
appearance). -/
def value_counts (vs : List Value) : List (Value × Nat) :=
  let nn := vs.filter (fun v => !v.isMissingB)
  List.insertionSort (fun a b : Value × Nat => b.2 ≤ a.2)
    ((distinctFirstAux [] nn).map (fun v => (v, nn.count v)))

structure FreqTable where
  column : String
  values : List Value
  counts : List Nat
  percentages : List ℚ
  unique_count : Nat
deriving DecidableEq

/-- insights.py frequency_tables (lines 175-198). -/
def frequency_tables (t : Table) (cats : List String) : List FreqTable :=
  cats.filterMap (fun name =>
    match t.findCol name with
    | none => none
    | some c =>
        let vc := (value_counts c.vals).take TOP_N_CATEGORIES
        let total := c.vals.countP (fun v => !v.isMissingB)
        some
          { column := name
            values := vc.map Prod.fst
            counts := vc.map Prod.snd
            percentages :=
              vc.map (fun p => if total = 0 then 0 else roundTo 1 ((p.2 : ℚ) / (total : ℚ) * 100))
            unique_count := (distinctFirstAux [] (c.vals.filter (fun v => !v.isMissingB))).length })

/-- A chart configuration, one constructor per rule of
auto_select_charts, carrying the data series the source puts into the
config dict (titles, colours and label formatting are presentation). -/
inductive Chart where
  | line (numCol : String) (labels : List Date) (data : List ℚ)
  | avgBar (catCol numCol : String) (labels : List Value) (data : List ℚ)
  | catDist (catCol : String) (chartType : String) (labels : List Value) (data : List Nat)
  | histBar (numCol : String) (labels : List ℚ) (data : List Nat)
  | scatter (col1 col2 : String) (corr : CorrVal) (points : List (ℚ × ℚ))
  | heatmap (columns : List String) (matrix : List (String × List (String × CorrVal)))
deriving DecidableEq

/-- Helper for Python slicing l[::step]: k counts down to the next kept
index (an element is kept when k = 0). -/
def strideGo {α : Type} (step : Nat) : Nat → List α → List α
  | _, [] => []
  | k, a :: rest =>
      if k = 0 then a :: strideGo step (step - 1) rest
      else strideGo step (k - 1) rest

/-- Python l[::step]: every step-th element starting at index 0. -/
def strideTake {α : Type} (step : Nat) (l : List α) : List α :=
  strideGo step 0 l

/-- The complete-case (date, number) rows for a datetime/numeric column
pair, in row order. -/
def completeDQ (t : Table) (dtCol numCol : String) : List (Date × ℚ) :=
  match t.findCol dtCol, t.findCol numCol with
  | some dc, some nc =>
      (List.range t.nrows).filterMap (fun i =>
        match (dc.vals.getD i .missing).toDate, (nc.vals.getD i .missing).toQ with
        | some d, some q => some (d, q)
        | _, _ => none)
  | _, _ => []

/-- df.sort_values(dt_col): stable ascending sort by the date. -/
def sortByDate (l : List (Date × ℚ)) : List (Date × ℚ) :=
  List.insertionSort (fun a b => dateLe a.1 b.1 = true) l

/-- The line chart of insights.py lines 255-277 for one datetime/numeric
pair: complete cases sorted by date, strided by len/200 when longer than
200.  The NaN-to-0 coercion of line 269 is the identity here: rows with
a missing value were dropped before sorting. -/
def lineChartFor (t : Table) (dtCol numCol : String) : Option Chart :=
  let sorted := sortByDate (completeDQ t dtCol numCol)
  if sorted.length < 2 then none
  else
    let n := sorted.length
    let plotted := if 200 < n then strideTake (n / 200) sorted else sorted
    some (.line numCol (plotted.map Prod.fst) (plotted.map Prod.snd))

/-- df.groupby(cat)[num].mean(): keys are the distinct non-missing
category values in sorted order (groupby sorts and drops NaN keys); the
group mean skips missing values and a group with no numeric value (NaN
mean) is dropped, as nlargest drops NaN. -/
def groupMeans (t : Table) (catCol numCol : String) : List (Value × ℚ) :=
  match t.findCol catCol, t.findCol numCol with
  | some cc, some nc =>
      (List.insertionSort (fun a b => valueLe a b = true)
          (distinctFirstAux [] (cc.vals.filter (fun v => !v.isMissingB)))).filterMap
        (fun k =>
          (meanOpt ((List.range t.nrows).filterMap (fun i =>
            if cc.vals.getD i .missing = k then (nc.vals.getD i .missing).toQ else none))).map
            (fun m => (k, m)))
  | _, _ => []

/-- The category/numeric bar chart of insights.py lines 280-291:
nlargest(10) of the group means (stable descending sort, then take). -/
def avgBarFor (t : Table) (catCol numCol : String) : Option Chart :=
  let grouped :=
    (List.insertionSort (fun a b : Value × ℚ => b.2 ≤ a.2) (groupMeans t catCol numCol)).take
      TOP_N_CATEGORIES
  if grouped.isEmpty then none
  else some (.avgBar catCol numCol (grouped.map Prod.fst) (grouped.map (fun p => roundTo 2 p.2)))

/-- The single-category distribution chart of insights.py lines 294-305:
value counts are truncated to MAX_PIE_CATEGORIES first, and the chart
type test compares the truncated length with the same bound (so the bar
branch is unreachable). -/
def catDistFor (t : Table) (catCol : String) : Option Chart :=
  match t.findCol catCol with
  | none => none
  | some c =>
      let vc := (value_counts c.vals).take MAX_PIE_CATEGORIES
      if vc.isEmpty then none
      else
        some (.catDist catCol (if vc.length ≤ MAX_PIE_CATEGORIES then "pie" else "bar")
          (vc.map Prod.fst) (vc.map Prod.snd))

/-- The histogram chart of insights.py lines 308-320. -/
def histChartFor (t : Table) (numCol : String) : Option Chart :=
  match t.findCol numCol with
  | none => none
  | some c =>
      let series := c.vals.filterMap Value.toQ
      if series.length < 2 then none
      else
        let nb := min 30 (max 5 (isqrt series.length))
        let r := histRange series
        let es := histEdges r.1 r.2 nb
        some (.histBar numCol ((List.range nb).map (fun i => es.getD i 0)) (histCounts series nb))

/-- The complete-case (number, number) rows for two numeric columns. -/
def completeQQ (t : Table) (c1 c2 : String) : List (ℚ × ℚ) :=
  match t.findCol c1, t.findCol c2 with
  | some a, some b =>
      (List.range t.nrows).filterMap (fun i =>
        match (a.vals.getD i .missing).toQ, (b.vals.getD i .missing).toQ with
        | some x, some y => some (x, y)
        | _, _ => none)
  | _, _ => []

/-- The scatter chart of insights.py lines 323-340 for one significant
pair; sa is the seeded 500-row sampler .sample(500, random_state=42). -/
def scatterFor (sa : List (ℚ × ℚ) → List (ℚ × ℚ)) (t : Table) (p : SigPair) : Chart :=
  let subset := completeQQ t p.col1 p.col2
  let pts := if 500 < subset.length then sa subset else subset
  .scatter p.col1 p.col2 p.corr (pts.map (fun q => (roundTo 4 q.1, roundTo 4 q.2)))

/-- insights.py auto_select_charts (lines 223-351), the six rule groups
in source order. -/
def auto_select_charts (sa : List (ℚ × ℚ) → List (ℚ × ℚ)) (t : Table)
    (ct : ColTypes) (corr : CorrOut) : List Chart :=
  (ct.datetime.flatMap (fun dt => (ct.numeric.take 3).filterMap (lineChartFor t dt))) ++
    ((ct.categorical.take 3).flatMap (fun cat => (ct.numeric.take 2).filterMap (avgBarFor t cat))) ++
    ((ct.categorical.take 3).filterMap (catDistFor t)) ++
    ((ct.numeric.take 4).filterMap (histChartFor t)) ++
    (if corr.significant_pairs.isEmpty then []
     else (corr.significant_pairs.take 3).map (scatterFor sa t)) ++
    (if 2 ≤ ct.numeric.length ∧ corr.matrix ≠ [] then [Chart.heatmap ct.numeric corr.matrix]
     else [])

/-- One NLG sentence, carrying the data interpolated into the template
(insights.py lines 358-450). -/
inductive Sentence where
  | overview (rows cols nNum nCat nDt : Nat)
  | numRange (col : String) (mn mx mean median : ℚ)
  | skewDirection (col : String) (right : Bool) (skewness : ℚ)
  | highestValue (col : String) (mx : ℚ)
  | strongestCorr (col1 col2 : String) (strong positive : Bool) (r4 p : ℚ)
  | topCategory (col : String) (topVal : Value) (topPct : ℚ) (uniqueCount : Nat)
  | trend (numCol : String) (upward : Bool) (rSq : ℚ)
deriving DecidableEq

/-- max(stats_data, key=max field): Python max keeps the first of equal
keys. -/
def maxByMax (l : List StatRecord) : Option StatRecord :=
  l.foldl (fun acc s =>
    match acc with
    | none => some s
    | some a => if a.max < s.max then some s else acc) none

/-- The trend sentence of insights.py lines 432-448 for one
datetime/numeric pair: ordinary least squares of the value against the
row position on the date-sorted complete cases; scipy sets r = 0 when a
variance vanishes, and with at least 10 rows and distinct positions the
regression cannot raise. -/
def trendFor (t : Table) (dtCol numCol : String) : Option Sentence :=
  let sub := sortByDate (completeDQ t dtCol numCol)
  if sub.length < 10 then none
  else
    let ys := sub.map Prod.snd
    let xs : List ℚ := (List.range ys.length).map (fun i => (i : ℚ))
    let mx := meanQ xs
    let my := meanQ ys
    let sxy := qsum ((xs.zip ys).map (fun p => (p.1 - mx) * (p.2 - my)))
    let sxx := qsum (xs.map (fun x => (x - mx) ^ 2))
    let syy := qsum (ys.map (fun y => (y - my) ^ 2))
    some (.trend numCol (0 < sxy / sxx) (if syy = 0 then 0 else sxy ^ 2 / (sxx * syy)))

/-- insights.py generate_nlg_insights (lines 358-450), the six sentence
groups in source order. -/
def generate_nlg_insights (t : Table) (ct : ColTypes) (stats : List StatRecord)
    (corr : CorrOut) (freq : List FreqTable) : List Sentence :=
  ([Sentence.overview t.nrows t.cols.length ct.numeric.length ct.categorical.length
      ct.datetime.length] ++
    (stats.flatMap (fun s =>
      [Sentence.numRange s.column s.min s.max s.mean s.median] ++
        (match s.skewness with
         | some z => if 1 < abs z then [Sentence.skewDirection s.column (0 < z) z] else []
         | none => []))) ++
    (match maxByMax stats with
     | some m => [Sentence.highestValue m.column m.max]
     | none => []) ++
    (match corr.significant_pairs with
     | [] => []
     | top :: _ =>
         [Sentence.strongestCorr top.col1 top.col2 (7/10 < top.corr.absR4) (0 < top.corr.r4)
           top.corr.r4 top.p]) ++
    (freq.filterMap (fun fr =>
      match fr.values, fr.percentages with
      | v :: _, pct :: _ => some (Sentence.topCategory fr.column v pct fr.unique_count)
      | _, _ => none)) ++
    (ct.datetime.flatMap (fun dt => (ct.numeric.take 2).filterMap (trendFor t dt))))

/-- The insights bundle returned by generate_full_insights. -/
structure Insights where
  column_types : ColTypes
  stats : List StatRecord
  correlation : CorrOut
  distributions : List DistRecord
  freq : List FreqTable
  charts : List Chart
  sentences : List Sentence
  total_rows : Nat
  total_columns : Nat
  numeric_columns : Nat
  categorical_columns : Nat
  datetime_columns : Nat
deriving DecidableEq

/-- insights.py generate_full_insights (lines 457-491).  Each helper
only reads the frame (no statement of the insight engine assigns into
df), so the translation also returns the table the caller's df refers
to after the call: the input itself. -/
def generate_full_insights (pOr : List ℚ → List ℚ → Option ℚ)
    (sa : List (ℚ × ℚ) → List (ℚ × ℚ)) (t : Table) : Insights × Table :=
  let ct := classify_columns t
  let stats := descriptive_stats t ct.numeric
  let corr := correlation_matrix pOr t ct.numeric
  let dist := distribution_analysis t ct.numeric
  let freq := frequency_tables t ct.categorical
  let charts := auto_select_charts sa t ct corr
  let nlg := generate_nlg_insights t ct stats corr freq
  (⟨ct, stats, corr, dist, freq, charts, nlg, t.nrows, t.cols.length,
      ct.numeric.length, ct.categorical.length, ct.datetime.length⟩,
    t)

/-- Trivial str() oracle (the concrete tables below hold no non-string
object cells, so it is never consulted). -/
def strOracle0 : Value → String := fun _ => ""

/-- Trivial date-parse oracle (the concrete tables below hold no object
columns, so it is never consulted). -/
def dateOracle0 : Value → Option Date := fun _ => none

/-- Trivial p-value oracle. -/
def pOracle0 : List ℚ → List ℚ → Option ℚ := fun _ _ => none

/-- Trivial sampler. -/
def sample0 : List (ℚ × ℚ) → List (ℚ × ℚ) := fun l => l

/-- Duplicate-removal log entries. -/
def LogEntry.isDedup : LogEntry → Bool
  | .removedDuplicates _ => true
  | _ => false

/-- Missing-value-imputation log entries (the four branches of
handle_missing_values). -/
def LogEntry.isImpute : LogEntry → Bool
  | .filledMissingMedian _ _ => true
  | .filledMissingMean _ _ => true
  | .droppedMissingDatetime _ _ _ => true
  | .forwardFilledDatetime _ _ => true
  | .filledMissingMode _ _ => true
  | _ => false

/-- Outlier-detection log entries. -/
def LogEntry.isOutlier : LogEntry → Bool
  | .detectedOutliers _ _ => true
  | _ => false

/-- No cell of the table is missing. -/
def Table.noMissing (t : Table) : Prop :=
  ∀ c ∈ t.cols, ∀ v ∈ c.vals, v ≠ Value.missing

instance (t : Table) : Decidable t.noMissing := by
  unfold Table.noMissing; infer_instance

/-- No two rows of the table are equal. -/
def Table.noDupRows (t : Table) : Prop :=
  t.rowsList.Nodup

instance (t : Table) : Decidable t.noDupRows := by
  unfold Table.noDupRows; infer_instance

/-- The detect_outliers trigger is inactive on this column: the
quantiles are NaN, or the IQR is 0, or no cell lies outside the
fences. -/
def colNoOutlierTrig (c : Col) : Bool :=
  let xs := c.vals.filterMap Value.toQ
  match quantileQ (1/4) xs, quantileQ (3/4) xs with
  | some q1, some q3 =>
      let iqr := q3 - q1
      decide (iqr = 0) ||
        c.vals.countP (outlierCell (q1 - IQR_MULTIPLIER * iqr) (q3 + IQR_MULTIPLIER * iqr)) == 0
  | _, _ => true

/-- No numeric column of the table triggers outlier detection. -/
def Table.noOutlierTrig (t : Table) : Prop :=
  ∀ c ∈ t.cols, c.dtype = Dtype.numeric → colNoOutlierTrig c = true

instance (t : Table) : Decidable t.noOutlierTrig := by
  unfold Table.noOutlierTrig; infer_instance

/-- The number of data points a chart plots. -/
def Chart.pointCount : Chart → Nat
  | .line _ _ data => data.length
  | .avgBar _ _ _ data => data.length
  | .catDist _ _ _ data => data.length
  | .histBar _ _ data => data.length
  | .scatter _ _ _ pts => pts.length
  | .heatmap _ _ => 0

/-- The chart_type field of the emitted config. -/
def Chart.tag : Chart → String
  | .line _ _ _ => "line"
  | .avgBar _ _ _ _ => "bar"
  | .catDist _ ty _ _ => ty
  | .histBar _ _ _ => "bar"
  | .scatter _ _ _ _ => "scatter"
  | .heatmap _ _ => "heatmap"

/-- Series.nunique() of a column (0 when the column is absent). -/
def Table.nunique (t : Table) (name : String) : Nat :=
  match t.findCol name with
  | none => 0
  | some c => (distinctFirstAux [] (c.vals.filter (fun v => !v.isMissingB))).length

/-- A one-column numeric table with an IQR outlier (the scenario of
spec section 8: Q1 = 2, Q3 = 4, IQR = 2, upper fence 7, so 100 is
flagged). -/
def exOutlierT : Table :=
  ⟨[⟨"x", .numeric, [.num 1, .num 2, .num 3, .num 4, .num 100]⟩]⟩

/-- A one-column numeric table that is already clean in every sense. -/
def exCleanT : Table :=
  ⟨[⟨"x", .numeric, [.num 1, .num 2, .num 3]⟩]⟩

/-- A one-column object table whose only value is already trimmed. -/
def exTrimT : Table :=
  ⟨[⟨"a", .obj, [.str "a"]⟩]⟩

/-- A table whose column name consists only of characters outside
[a-z0-9_]. -/
def exBangT : Table :=
  ⟨[⟨"!!!", .numeric, [.num 1]⟩]⟩

/-- Two numeric columns, the first constant (zero variance). -/
def exConstT : Table :=
  ⟨[⟨"a", .numeric, [.num 1, .num 1, .num 1]⟩,
    ⟨"b", .numeric, [.num 1, .num 2, .num 3]⟩]⟩

/-- The price/qty scenario table of spec section 8. -/
def exPriceT : Table :=
  ⟨[⟨"price", .numeric, [.num 10, .num 20, .num 30, .num 40]⟩,
    ⟨"qty", .numeric, [.num 2, .num 2, .num 0, .num 1]⟩]⟩

/-- A categorical column with 8 distinct values. -/
def exPieT : Table :=
  ⟨[⟨"c", .obj,
      [.str "v1", .str "v2", .str "v3", .str "v4",
       .str "v5", .str "v6", .str "v7", .str "v8"]⟩]⟩

/-- A 250-row table with one datetime and one numeric column, already
sorted by date. -/
def exLineT : Table :=
  ⟨[⟨"d", .datetime, (List.range 250).map (fun i => .date ⟨2020, 1, (i : Int)⟩)⟩,
    ⟨"v", .numeric, (List.range 250).map (fun i => .num (i : ℚ))⟩]⟩

/-- A 3-row datetime/numeric table (below the subsampling bound). -/
def exLineT3 : Table :=
  ⟨[⟨"d", .datetime, [.date ⟨2020, 1, 3⟩, .date ⟨2020, 1, 1⟩, .date ⟨2020, 1, 2⟩]⟩,
    ⟨"v", .numeric, [.num 30, .num 10, .num 20]⟩]⟩

/-- A numeric column with one missing value among four rows. -/
def exStatT : Table :=
  ⟨[⟨"x", .numeric, [.num 1, .num 2, .num 3, .missing]⟩]⟩

/-- The record descriptive_stats emits for the column of exStatT. -/
def exStatRec : StatRecord :=
  ⟨"x", 3, 2, 2, some 1, 1, 3, some 0, none, 25⟩

/-- An object column exercising trimming, a missing cell, and the "nan"
marker string. -/
def exTrimWitT : Table :=
  ⟨[⟨"s", .obj, [.str "  a ", .missing, .str "nan"]⟩]⟩

/-- Columns positionally agree on dtype and data (names may differ):
the relation between a table and its renamed version. -/
def sameData (t t2 : Table) : Prop :=
  List.Forall₂ (fun c c2 => c.dtype = c2.dtype ∧ c.vals = c2.vals) t.cols t2.cols

/-- The log contains no duplicate-removal, imputation, or
outlier-detection entry. -/
def noReCleanLogs (log : List LogEntry) : Prop :=
  ∀ e ∈ log, e.isDedup = false ∧ e.isImpute = false ∧ e.isOutlier = false

instance (log : List LogEntry) : Decidable (noReCleanLogs log) := by
  unfold noReCleanLogs; infer_instance

/-- The corrected correlation_matrix contract (claim C4): the matrix
entry at (a, b) is the Pearson pair of the two subset columns and the
matrix is symmetric; a diagonal entry is 1 exactly when the column has
positive variance on the complete-case subset (for a zero-variance
column it is NaN, den2 = 0); every significant pair joins two listed
columns, distinct when the column list has no duplicates, with an
oracle p-value below the significance level stored rounded to 6 digits;
and the list is sorted descending in the 4-decimal absolute
correlation. -/
def corrContract (pOr : List ℚ → List ℚ → Option ℚ) (t : Table)
    (cols : List String) : Prop :=
  (∀ a ∈ cols, ∀ b ∈ cols,
      mLookup (correlation_matrix pOr t cols).matrix a b =
          some (corrPair (subsetCol t cols a) (subsetCol t cols b)) ∧
        mLookup (correlation_matrix pOr t cols).matrix a b =
          mLookup (correlation_matrix pOr t cols).matrix b a) ∧
  (∀ a ∈ cols, 0 < (corrPair (subsetCol t cols a) (subsetCol t cols a)).num →
      ∃ v, mLookup (correlation_matrix pOr t cols).matrix a a = some v ∧
        v.isOne ∧ v.r4 = 1) ∧
  (∀ e ∈ (correlation_matrix pOr t cols).significant_pairs,
      e.col1 ∈ cols ∧ e.col2 ∈ cols ∧ e.col1 ≠ e.col2 ∧
        ∃ p0, pOr (subsetCol t cols e.col1) (subsetCol t cols e.col2) = some p0 ∧
          p0 < CORRELATION_SIGNIFICANCE ∧ e.p = roundTo 6 p0) ∧
  (correlation_matrix pOr t cols).significant_pairs.Pairwise
    (fun a b => b.corr.absR4 ≤ a.corr.absR4)

/-- The corrected per-step logging contract (claim C8): standardisation
and duplicate removal log exactly when they change the table; string
trimming logs exactly when an object column exists (even unchanged);
every other step is silent only when it leaves the table unchanged (no
step changes the table silently); storage optimisation always logs
once. -/
def stepLogContract (f : Value → String) (po : Value → Option Date) (t : Table) : Prop :=
  ((standardize_columns t).2 ≠ [] ↔ (standardize_columns t).1 ≠ t) ∧
  ((remove_duplicates t).2 ≠ [] ↔ (remove_duplicates t).1 ≠ t) ∧
  ((trim_strings f t).2 ≠ [] ↔ ∃ c ∈ t.cols, c.dtype = Dtype.obj) ∧
  ((trim_strings f t).1 ≠ t → (trim_strings f t).2 ≠ []) ∧
  ((handle_missing_values t).1 ≠ t → (handle_missing_values t).2 ≠ []) ∧
  ((convert_dates po t).1 ≠ t → (convert_dates po t).2 ≠ []) ∧
  ((detect_outliers t).1 ≠ t → (detect_outliers t).2.1 ≠ []) ∧
  ((feature_engineering t).1 ≠ t → (feature_engineering t).2 ≠ []) ∧
  ((validate_output t).1 ≠ t → (validate_output t).2 ≠ []) ∧
  (optimize_dtypes t).2 = [LogEntry.optimizedDtypes]

/- ------------------------------------------------------------------
Theorems.  First a toolbox of lemmas about the embedded operations,
then one theorem (plus counterexample/witness) per claim.
------------------------------------------------------------------- -/

theorem map_eq_self {α : Type} {l : List α} {g : α → α} (h : l.map g = l) :
    ∀ a ∈ l, g a = a := by
  induction l with
  | nil => intro a ha; cases ha
  | cons b l ih =>
      rw [List.map_cons, List.cons_eq_cons] at h
      intro a ha
      rcases List.mem_cons.mp ha with rfl | ha
      · exact h.1
      · exact ih h.2 a ha

theorem mem_collapseU : ∀ {l : List Char} {c : Char}, c ∈ collapseU l → c ∈ l
  | [], _, h => by simp [collapseU] at h
  | [a], c, h => by simpa [collapseU] using h
  | a :: b :: r, c, h => by
      rw [collapseU] at h
      by_cases hab : (a == '_' && b == '_') = true
      · rw [if_pos hab] at h
        exact List.mem_cons_of_mem a (mem_collapseU h)
      · rw [if_neg hab] at h
        rcases List.mem_cons.mp h with rfl | h
        · exact List.mem_cons_self c _
        · exact List.mem_cons_of_mem a (mem_collapseU h)

theorem collapseU_cons_ne (b : Char) (r : List Char) (hb : (b == '_') = false) :
    ∃ tl, collapseU (b :: r) = b :: tl := by
  cases r with
  | nil => exact ⟨[], rfl⟩
  | cons c r2 =>
      rw [collapseU]
      rw [if_neg (by simp [hb])]
      exact ⟨_, rfl⟩

theorem noDouble_cons (a : Char) (l : List Char) (ha : (a == '_') = false)
    (hl : noDouble l = true) : noDouble (a :: l) = true := by
  cases l with
  | nil => rfl
  | cons b r =>
      rw [noDouble, ha]
      simpa using hl

theorem noDouble_collapseU : ∀ l : List Char, noDouble (collapseU l) = true
  | [] => rfl
  | [_] => rfl
  | a :: b :: r => by
      rw [collapseU]
      by_cases hab : (a == '_' && b == '_') = true
      · rw [if_pos hab]
        exact noDouble_collapseU (b :: r)
      · rw [if_neg hab]
        by_cases ha : (a == '_') = true
        · have hb : (b == '_') = false := by
            cases hbv : (b == '_') with
            | false => rfl
            | true => simp [ha, hbv] at hab
          obtain ⟨tl, htl⟩ := collapseU_cons_ne b r hb
          rw [htl]
          have hnd := noDouble_collapseU (b :: r)
          rw [htl] at hnd
          rw [noDouble, hb]
          simpa using hnd
        · exact noDouble_cons a _ (Bool.not_eq_true _ ▸ ha) (noDouble_collapseU (b :: r))

theorem noDouble_tail {a : Char} {l : List Char} (h : noDouble (a :: l) = true) :
    noDouble l = true := by
  cases l with
  | nil => rfl
  | cons b r =>
      rw [noDouble, Bool.and_eq_true] at h
      exact h.2

theorem noDouble_dropWhile (p : Char → Bool) :
    ∀ l : List Char, noDouble l = true → noDouble (l.dropWhile p) = true
  | [], h => h
  | a :: l, h => by
      rw [List.dropWhile_cons]
      by_cases hp : p a = true
      · rw [if_pos hp]
        exact noDouble_dropWhile p l (noDouble_tail h)
      · rw [if_neg hp]
        exact h

theorem noDouble_append_left :
    ∀ (l₁ l₂ : List Char), noDouble (l₁ ++ l₂) = true → noDouble l₁ = true
  | [], _, _ => rfl
  | [_], _, _ => rfl
  | a :: b :: r, l₂, h => by
      simp only [List.cons_append] at h
      rw [noDouble, Bool.and_eq_true] at h
      rw [noDouble, Bool.and_eq_true]
      exact ⟨h.1, noDouble_append_left (b :: r) l₂ (by simpa using h.2)⟩

theorem dropTrailing_prefix_exists (p : Char → Bool) (l : List Char) :
    ∃ suf, l = dropTrailing p l ++ suf := by
  refine ⟨(l.reverse.takeWhile p).reverse, ?_⟩
  unfold dropTrailing
  conv_lhs => rw [← l.reverse_reverse]
  conv_lhs => rw [← List.takeWhile_append_dropWhile (p := p) (l := l.reverse)]
  rw [List.reverse_append]

theorem noDouble_dropTrailing (p : Char → Bool) (l : List Char)
    (h : noDouble l = true) : noDouble (dropTrailing p l) = true := by
  obtain ⟨suf, hs⟩ := dropTrailing_prefix_exists p l
  exact noDouble_append_left _ _ (hs ▸ h)

theorem head_dropWhile_not (p : Char → Bool) :
    ∀ (l : List Char) (c : Char), (l.dropWhile p).head? = some c → p c = false
  | [], c, h => by simp at h
  | a :: l, c, h => by
      rw [List.dropWhile_cons] at h
      by_cases hp : p a = true
      · rw [if_pos hp] at h
        exact head_dropWhile_not p l c h
      · rw [if_neg hp] at h
        rw [List.head?_cons, Option.some_inj] at h
        rw [← h]
        exact Bool.not_eq_true _ ▸ hp

theorem getLast_dropTrailing (p : Char → Bool) (l : List Char) (c : Char)
    (h : (dropTrailing p l).getLast? = some c) : p c = false := by
  unfold dropTrailing at h
  rw [List.getLast?_reverse] at h
  exact head_dropWhile_not p _ c h

theorem head_of_prefix {l₁ suf : List Char} {c : Char}
    (h : l₁.head? = some c) : (l₁ ++ suf).head? = some c := by
  cases l₁ with
  | nil => simp at h
  | cons a r => simpa using h

theorem head_stripU_not {l : List Char} {c : Char}
    (h : (stripU l).head? = some c) : (c == '_') = false := by
  unfold stripU at h
  obtain ⟨suf, hs⟩ := dropTrailing_prefix_exists (fun c => c == '_')
    (l.dropWhile (fun c => c == '_'))
  have : (l.dropWhile (fun c => c == '_')).head? = some c := by
    rw [hs]
    exact head_of_prefix h
  exact head_dropWhile_not (fun c => c == '_') l c this

theorem mem_dropTrailing {p : Char → Bool} {l : List Char} {c : Char}
    (h : c ∈ dropTrailing p l) : c ∈ l := by
  obtain ⟨suf, hs⟩ := dropTrailing_prefix_exists p l
  rw [hs]
  exact List.mem_append_left _ h

theorem mem_dropWhileL {p : Char → Bool} {l : List Char} {c : Char}
    (h : c ∈ l.dropWhile p) : c ∈ l := by
  have hl := List.takeWhile_append_dropWhile (p := p) (l := l)
  have hm : c ∈ l.takeWhile p ++ l.dropWhile p := List.mem_append_right _ h
  rwa [hl] at hm

theorem mem_stripU {l : List Char} {c : Char} (h : c ∈ stripU l) : c ∈ l :=
  mem_dropWhileL (mem_dropTrailing h)

theorem stdName_ok (s : String) : nameOkStar (stdName s) := by
  refine ⟨?_, ?_, ?_, ?_⟩
  · intro c hc
    have h1 : c ∈ collapseU (((wsStrip s.data).map Char.toLower).map underscoreChar) :=
      mem_stripU hc
    have h2 := mem_collapseU h1
    rw [List.mem_map] at h2
    obtain ⟨x, _, hx⟩ := h2
    rw [← hx]
    unfold underscoreChar
    by_cases hax : allowedChar x = true
    · rw [if_pos hax]; exact hax
    · rw [if_neg hax]; decide
  · intro c hc
    have := head_stripU_not hc
    intro hcu
    rw [hcu] at this
    simp at this
  · intro c hc
    have := getLast_dropTrailing _ _ _ hc
    intro hcu
    rw [hcu] at this
    simp at this
  · exact noDouble_dropTrailing _ _
      (noDouble_dropWhile _ _ (noDouble_collapseU _))

theorem stdName_fixed_ok {s : String} (h : stdName s = s) : nameOkStar s :=
  h ▸ stdName_ok s

/-- Claim C2, counterexample: standardising a column whose name has no
character in [a-z0-9_] yields the empty column name, which does not
match ^[a-z0-9_]+$. -/
theorem C2_counterexample :
    ((standardize_columns exBangT).1.cols.map Col.name) = [""] ∧ ¬ nameOkPlus "" := by
  refine ⟨by decide, ?_⟩
  intro h
  exact h.2 rfl

/-- Claim C2, amended: after standardisation every column name matches
^[a-z0-9_]*$ (possibly empty) with no leading, trailing or doubled
underscore; the original claim fails only in that the name can be
empty. -/
theorem C2_amended (t : Table) (name : String)
    (h : name ∈ (standardize_columns t).1.cols.map Col.name) : nameOkStar name := by
  unfold standardize_columns at h
  by_cases hc :
      (((t.cols.map Col.name).dedup).filter (fun n => stdName n != n)).isEmpty = true
  · rw [if_pos hc] at h
    have hfix : stdName name = name := by
      rw [List.isEmpty_iff] at hc
      have hall := List.filter_eq_nil_iff.mp hc name
      have hmem : name ∈ (t.cols.map Col.name).dedup := List.mem_dedup.mpr h
      have := hall hmem
      simpa using this
    exact stdName_fixed_ok hfix
  · rw [if_neg hc] at h
    simp only [List.map_map, List.mem_map] at h
    obtain ⟨c, _, hc2⟩ := h
    rw [← hc2]
    exact stdName_ok _

/-- Witness for C2_amended at a concrete table. -/
theorem C2_amended_witness :
    "hello_world" ∈
        (standardize_columns ⟨[⟨"  Hello  World!", .numeric, []⟩]⟩).1.cols.map Col.name ∧
      nameOkStar "hello_world" :=
  ⟨by decide, C2_amended ⟨[⟨"  Hello  World!", .numeric, []⟩]⟩ "hello_world" (by decide)⟩

/-- Claim C3: the missing percentage a stats record reports is the
column's missing count over the table's full row count (times 100,
rounded to 2 decimals), while the record's count is the non-missing
length: the denominator is the row count of the frame handed to the
stats function, not the length of the dropna series. -/
theorem C3_missing_pct (t : Table) (cols : List String) (r : StatRecord)
    (hr : r ∈ descriptive_stats t cols) :
    r.missing_pct =
        roundTo 2
          ((((t.findCol r.column).map (fun c => c.vals.countP Value.isMissingB)).getD 0 : ℚ) /
            (t.nrows : ℚ) * 100) ∧
      r.count =
        ((t.findCol r.column).map (fun c => (c.vals.filterMap Value.toQ).length)).getD 0 := by
  unfold descriptive_stats at hr
  rw [List.mem_filterMap] at hr
  obtain ⟨name, _, hsf⟩ := hr
  unfold statFor at hsf
  cases hfind : t.findCol name with
  | none => rw [hfind] at hsf; cases hsf
  | some c =>
      rw [hfind] at hsf
      dsimp only at hsf
      by_cases he : (c.vals.filterMap Value.toQ).isEmpty = true
      · rw [if_pos he] at hsf; cases hsf
      · rw [if_neg he] at hsf
        have hrec := Option.some_inj.mp hsf
        subst hrec
        exact ⟨by simp [hfind], by simp [hfind]⟩

/-- Witness for C3_missing_pct at a concrete table. -/
theorem C3_missing_pct_witness :
    exStatRec ∈ descriptive_stats exStatT ["x"] ∧
      (exStatRec.missing_pct =
          roundTo 2
            ((((exStatT.findCol exStatRec.column).map
                  (fun c => c.vals.countP Value.isMissingB)).getD 0 : ℚ) /
              (exStatT.nrows : ℚ) * 100) ∧
        exStatRec.count =
          ((exStatT.findCol exStatRec.column).map
              (fun c => (c.vals.filterMap Value.toQ).length)).getD 0) :=
  ⟨by decide, C3_missing_pct exStatT ["x"] exStatRec (by decide)⟩

/-- Claim C7: on the price/qty scenario table the pipeline produces a
price_per_unit column equal to price divided by qty on the rows with
non-zero qty and missing on the zero-qty row. -/
theorem C7_price_per_unit :
    ((run strOracle0 dateOracle0 exPriceT).1).findCol "price_per_unit" =
      some ⟨"price_per_unit", .numeric, [.num 5, .num 10, .missing, .num 40]⟩ := by
  decide

/-- Claim C9: generate_full_insights leaves its input table unchanged;
every analysis helper of the insight engine only reads the frame. -/
theorem C9_insights_read_only (pOr : List ℚ → List ℚ → Option ℚ)
    (sa : List (ℚ × ℚ) → List (ℚ × ℚ)) (t : Table) :
    (generate_full_insights pOr sa t).2 = t := rfl

theorem dropWhile_eq_self_of_head {p : Char → Bool} {l : List Char}
    (h : ∀ c, l.head? = some c → p c = false) : l.dropWhile p = l := by
  cases l with
  | nil => rfl
  | cons a r =>
      rw [List.dropWhile_cons, if_neg]
      simp [h a rfl]

theorem dropTrailing_eq_self_of_getLast {p : Char → Bool} {l : List Char}
    (h : ∀ c, l.getLast? = some c → p c = false) : dropTrailing p l = l := by
  unfold dropTrailing
  rw [dropWhile_eq_self_of_head, List.reverse_reverse]
  intro c hc
  rw [List.head?_reverse] at hc
  exact h c hc

theorem wsStrip_idem (l : List Char) : wsStrip (wsStrip l) = wsStrip l := by
  unfold wsStrip
  have h1 : (dropTrailing isWs (l.dropWhile isWs)).dropWhile isWs =
      dropTrailing isWs (l.dropWhile isWs) := by
    apply dropWhile_eq_self_of_head
    intro c hc
    obtain ⟨suf, hs⟩ := dropTrailing_prefix_exists isWs (l.dropWhile isWs)
    have hh : (l.dropWhile isWs).head? = some c := by
      rw [hs]
      exact head_of_prefix hc
    exact head_dropWhile_not isWs l c hh
  rw [h1]
  apply dropTrailing_eq_self_of_getLast
  intro c hc
  exact getLast_dropTrailing isWs _ c hc

/-- Claim C10: after trimming, every object column is the cell-wise
image of an original object column under trimCell (so every cell,
string-typed or not, is the stripped str() of the original), and every
remaining cell is either missing or a string with no surrounding
whitespace that is none of the markers "nan", "None", "". -/
theorem C10_trim_invariant (f : Value → String) (t : Table) (c2 : Col)
    (hc : c2 ∈ ((trim_strings f t).1).cols) (hd : c2.dtype = Dtype.obj) :
    ∃ c0 ∈ t.cols, c0.dtype = Dtype.obj ∧ c0.name = c2.name ∧
      c2.vals = c0.vals.map (trimCell f) ∧
      ∀ v ∈ c2.vals, v = Value.missing ∨
        ∃ s, v = Value.str s ∧ wsStrip s.data = s.data ∧
          s ≠ "nan" ∧ s ≠ "None" ∧ s ≠ "" := by
  unfold trim_strings at hc
  simp only [List.mem_map] at hc
  obtain ⟨c0, hc0, heq⟩ := hc
  by_cases hobj : (c0.dtype == Dtype.obj) = true
  · rw [if_pos hobj] at heq
    refine ⟨c0, hc0, by simpa using hobj, ?_, ?_, ?_⟩
    · rw [← heq]
    · rw [← heq]
    · intro v hv
      rw [← heq] at hv
      simp only [List.mem_map] at hv
      obtain ⟨w, _, hw⟩ := hv
      rw [← hw]
      unfold trimCell
      by_cases hcase :
          String.mk (wsStrip (pyStrOf f w).data) = "nan" ∨
            String.mk (wsStrip (pyStrOf f w).data) = "None" ∨
            String.mk (wsStrip (pyStrOf f w).data) = ""
      · rw [if_pos hcase]
        exact Or.inl rfl
      · rw [if_neg hcase]
        push_neg at hcase
        refine Or.inr ⟨_, rfl, ?_, hcase.1, hcase.2.1, hcase.2.2⟩
        exact wsStrip_idem (pyStrOf f w).data
  · rw [if_neg hobj] at heq
    rw [heq] at hobj
    rw [hd] at hobj
    simp at hobj

/-- Witness for C10_trim_invariant at a concrete table. -/
theorem C10_trim_invariant_witness :
    ((⟨"s", .obj, [.str "a", .missing, .missing]⟩ : Col) ∈
        ((trim_strings strOracle0 exTrimWitT).1).cols ∧
      (⟨"s", .obj, [.str "a", .missing, .missing]⟩ : Col).dtype = Dtype.obj) ∧
      ∃ c0 ∈ exTrimWitT.cols, c0.dtype = Dtype.obj ∧
        c0.name = (⟨"s", .obj, [.str "a", .missing, .missing]⟩ : Col).name ∧
        (⟨"s", .obj, [.str "a", .missing, .missing]⟩ : Col).vals =
          c0.vals.map (trimCell strOracle0) ∧
        ∀ v ∈ (⟨"s", .obj, [.str "a", .missing, .missing]⟩ : Col).vals,
          v = Value.missing ∨
            ∃ s, v = Value.str s ∧ wsStrip s.data = s.data ∧
              s ≠ "nan" ∧ s ≠ "None" ∧ s ≠ "" :=
  ⟨⟨by decide, rfl⟩,
    C10_trim_invariant strOracle0 exTrimWitT _ (by decide) rfl⟩

/-- Claim C1, counterexample: on the table with the IQR outlier 100 the
first pass flags the outlier (adding is_outlier_x), but since outliers
are flagged rather than removed, the second pass on the cleaned output
logs an outlier-detection entry again. -/
theorem C1_counterexample :
    ((run strOracle0 dateOracle0 exOutlierT).1).findCol "is_outlier_x" =
        some ⟨"is_outlier_x", .numeric, [.num 0, .num 0, .num 0, .num 0, .num 1]⟩ ∧
      ((run strOracle0 dateOracle0 (run strOracle0 dateOracle0 exOutlierT).1).2).any
          LogEntry.isOutlier = true :=
  ⟨by decide, by decide⟩

/-- Claim C5: for a categorical column with 8 distinct values the code
emits a pie chart of the top 7 value counts, never the bar chart the
claim describes: the value counts are truncated to MAX_PIE_CATEGORIES
before the length test, so the bar branch is unreachable. -/
theorem C5_pie_always :
    auto_select_charts sample0 exPieT (classify_columns exPieT)
        (correlation_matrix pOracle0 exPieT (classify_columns exPieT).numeric) =
      [Chart.catDist "c" "pie"
        [.str "v1", .str "v2", .str "v3", .str "v4", .str "v5", .str "v6", .str "v7"]
        [1, 1, 1, 1, 1, 1, 1]] ∧
      exPieT.nunique "c" = 8 ∧ MAX_PIE_CATEGORIES < exPieT.nunique "c" :=
  ⟨by decide, by decide, by decide⟩

/-- Claim C8, counterexample: trim_strings logs its entry on a table
with one already-trimmed object column although it changes nothing. -/
theorem C8_counterexample :
    (trim_strings strOracle0 exTrimT).1 = exTrimT ∧
      (trim_strings strOracle0 exTrimT).2 ≠ [] := by decide

set_option maxRecDepth 40000 in
/-- Claim C6, counterexample: a 250-point complete-case series is longer
than 200, yet the stride len//200 = 1 keeps all 250 points. -/
theorem C6_counterexample :
    (sortByDate (completeDQ exLineT "d" "v")).length = 250 ∧
      (lineChartFor exLineT "d" "v").map Chart.pointCount = some 250 :=
  ⟨by decide, by decide⟩

theorem dateLe_iff (a b : Date) :
    dateLe a b = true ↔
      (a.y < b.y ∨ (a.y = b.y ∧ (a.m < b.m ∨ (a.m = b.m ∧ a.d ≤ b.d)))) := by
  unfold dateLe
  split_ifs <;> simp_all <;> omega

instance : IsTotal (Date × ℚ) (fun a b => dateLe a.1 b.1 = true) :=
  ⟨fun a b => by rw [dateLe_iff, dateLe_iff]; omega⟩

instance : IsTrans (Date × ℚ) (fun a b => dateLe a.1 b.1 = true) :=
  ⟨fun a b c hab hbc => by rw [dateLe_iff] at hab hbc ⊢; omega⟩

theorem strideGo_sublist {α : Type} (step : Nat) :
    ∀ (k : Nat) (l : List α), List.Sublist (strideGo step k l) l
  | _, [] => List.Sublist.refl []
  | k, a :: rest => by
      rw [strideGo]
      by_cases hk : k = 0
      · rw [if_pos hk]
        exact (strideGo_sublist step (step - 1) rest).cons₂ a
      · rw [if_neg hk]
        exact (strideGo_sublist step (k - 1) rest).cons a

theorem strideGo_length {α : Type} (step : Nat) :
    ∀ (l : List α) (k : Nat), k < step →
      (strideGo step k l).length = (l.length + (step - 1) - k) / step
  | [], k, hk => by
      rw [strideGo]
      rw [List.length_nil]
      rw [Nat.div_eq_of_lt (by omega)]
  | a :: rest, k, hk => by
      rw [strideGo]
      by_cases hk0 : k = 0
      · rw [if_pos hk0]
        subst hk0
        rw [List.length_cons, strideGo_length step rest (step - 1) (by omega)]
        have h1 : rest.length + (step - 1) - (step - 1) = rest.length := by omega
        have h2 : (a :: rest).length + (step - 1) - 0 = rest.length + step := by
          rw [List.length_cons]; omega
        rw [h1, h2, Nat.add_div_right _ (by omega : 0 < step)]
      · rw [if_neg hk0]
        rw [strideGo_length step rest (k - 1) (by omega)]
        congr 1
        rw [List.length_cons]
        omega

theorem zip_map_fst_snd {α β : Type} :
    ∀ l : List (α × β), (l.map Prod.fst).zip (l.map Prod.snd) = l
  | [] => rfl
  | p :: l => by
      rw [List.map_cons, List.map_cons, List.zip_cons_cons, zip_map_fst_snd]

/-- Claim C6, amended: the line chart plots the complete-case series
sorted by date; when it is longer than 200 the points are strided by
len/200, which yields ceil(len/(len/200)) points: fewer, but possibly
more than 200 (up to 399).  The points stay date-ordered and every
plotted point is a complete-case row, so no missing value is plotted
(the coercion of missing to 0 never fires). -/
theorem C6_amended (t : Table) (dtCol numCol : String) (labels : List Date) (data : List ℚ)
    (h : lineChartFor t dtCol numCol = some (Chart.line numCol labels data)) :
    List.Pairwise (fun a b => dateLe a b = true) labels ∧
      labels.length = data.length ∧
      data.length =
        (if (sortByDate (completeDQ t dtCol numCol)).length ≤ 200 then
          (sortByDate (completeDQ t dtCol numCol)).length
         else
          ((sortByDate (completeDQ t dtCol numCol)).length +
              ((sortByDate (completeDQ t dtCol numCol)).length / 200 - 1)) /
            ((sortByDate (completeDQ t dtCol numCol)).length / 200)) ∧
      labels.zip data ⊆ completeDQ t dtCol numCol := by
  simp only [lineChartFor] at h
  by_cases hlen : (sortByDate (completeDQ t dtCol numCol)).length < 2
  · rw [if_pos hlen] at h
    cases h
  · rw [if_neg hlen] at h
    rw [Option.some_inj, Chart.line.injEq] at h
    obtain ⟨-, hlab, hdat⟩ := h
    have hsorted : List.Pairwise (fun a b : Date × ℚ => dateLe a.1 b.1 = true)
        (sortByDate (completeDQ t dtCol numCol)) :=
      List.sorted_insertionSort _ _
    have hplotsub :
        List.Sublist
          (if 200 < (sortByDate (completeDQ t dtCol numCol)).length then
            strideTake ((sortByDate (completeDQ t dtCol numCol)).length / 200)
              (sortByDate (completeDQ t dtCol numCol))
          else sortByDate (completeDQ t dtCol numCol))
          (sortByDate (completeDQ t dtCol numCol)) := by
      by_cases h200 : 200 < (sortByDate (completeDQ t dtCol numCol)).length
      · rw [if_pos h200]
        exact strideGo_sublist _ 0 _
      · rw [if_neg h200]
    have hplotpw := hsorted.sublist hplotsub
    refine ⟨?_, ?_, ?_, ?_⟩
    · rw [← hlab]
      exact hplotpw.map Prod.fst (fun a b hab => hab)
    · rw [← hlab, ← hdat]
      simp
    · rw [← hdat, List.length_map]
      by_cases h200 : 200 < (sortByDate (completeDQ t dtCol numCol)).length
      · rw [if_pos h200, if_neg (by omega)]
        have hstep : 0 < (sortByDate (completeDQ t dtCol numCol)).length / 200 :=
          (Nat.one_le_div_iff (by omega)).mpr (by omega)
        rw [show strideTake ((sortByDate (completeDQ t dtCol numCol)).length / 200)
              (sortByDate (completeDQ t dtCol numCol)) =
            strideGo ((sortByDate (completeDQ t dtCol numCol)).length / 200) 0
              (sortByDate (completeDQ t dtCol numCol)) from rfl]
        rw [strideGo_length _ _ 0 (by omega), Nat.sub_zero]
      · rw [if_neg h200, if_pos (by omega)]
    · rw [← hlab, ← hdat, zip_map_fst_snd]
      intro x hx
      have hxS := hplotsub.subset hx
      have : x ∈ completeDQ t dtCol numCol := by
        rw [show sortByDate (completeDQ t dtCol numCol) =
            List.insertionSort (fun a b => dateLe a.1 b.1 = true)
              (completeDQ t dtCol numCol) from rfl] at hxS
        exact (List.mem_insertionSort _).mp hxS
      exact this

/-- Witness for C6_amended at a concrete (3-row, unsampled) table. -/
theorem C6_amended_witness :
    lineChartFor exLineT3 "d" "v" =
        some (Chart.line "v" [⟨2020, 1, 1⟩, ⟨2020, 1, 2⟩, ⟨2020, 1, 3⟩] [10, 20, 30]) ∧
      (List.Pairwise (fun a b => dateLe a b = true)
          [(⟨2020, 1, 1⟩ : Date), ⟨2020, 1, 2⟩, ⟨2020, 1, 3⟩] ∧
        ([(⟨2020, 1, 1⟩ : Date), ⟨2020, 1, 2⟩, ⟨2020, 1, 3⟩] : List Date).length =
          ([10, 20, 30] : List ℚ).length ∧
        ([10, 20, 30] : List ℚ).length =
          (if (sortByDate (completeDQ exLineT3 "d" "v")).length ≤ 200 then
            (sortByDate (completeDQ exLineT3 "d" "v")).length
           else
            ((sortByDate (completeDQ exLineT3 "d" "v")).length +
                ((sortByDate (completeDQ exLineT3 "d" "v")).length / 200 - 1)) /
              ((sortByDate (completeDQ exLineT3 "d" "v")).length / 200)) ∧
        ([(⟨2020, 1, 1⟩ : Date), ⟨2020, 1, 2⟩, ⟨2020, 1, 3⟩] : List Date).zip
            ([10, 20, 30] : List ℚ) ⊆
          completeDQ exLineT3 "d" "v") :=
  ⟨by decide, C6_amended exLineT3 "d" "v" _ _ (by decide)⟩

theorem find?_self {l : List String} {a : String} (h : a ∈ l) :
    l.find? (fun c => c == a) = some a := by
  induction l with
  | nil => cases h
  | cons b l ih =>
      by_cases hb : (b == a) = true
      · have hba : b = a := by simpa using hb
        subst hba
        simp [List.find?]
      · have hmem : a ∈ l := by
          rcases List.mem_cons.mp h with rfl | hmem
          · simp at hb
          · exact hmem
        simpa [List.find?, hb] using ih hmem

theorem mLookup_matrix (g : String → String → CorrVal) (cols : List String)
    {a b : String} (ha : a ∈ cols) (hb : b ∈ cols) :
    mLookup (cols.map (fun c1 => (c1, cols.map (fun c2 => (c2, g c1 c2))))) a b =
      some (g a b) := by
  unfold mLookup
  rw [List.find?_map]
  rw [show ((fun p : String × List (String × CorrVal) => p.1 == a) ∘
      (fun c1 => (c1, cols.map (fun c2 => (c2, g c1 c2))))) = (fun c1 => c1 == a) from rfl]
  rw [find?_self ha]
  simp only [Option.map_some', Option.bind_some, Option.some_bind]
  rw [List.find?_map]
  rw [show ((fun p : String × CorrVal => p.1 == b) ∘ (fun c2 => (c2, g a c2))) =
      (fun c2 => c2 == b) from rfl]
  rw [find?_self hb]
  rfl

theorem corrPair_comm (xs ys : List ℚ) : corrPair ys xs = corrPair xs ys := by
  unfold corrPair
  refine congrArg₂ CorrVal.mk ?_ (mul_comm _ _)
  rw [← List.zip_swap xs ys, List.map_map]
  rw [show ((fun p : ℚ × ℚ => (p.1 - meanQ ys) * (p.2 - meanQ xs)) ∘ Prod.swap) =
      (fun p : ℚ × ℚ => (p.1 - meanQ xs) * (p.2 - meanQ ys)) from by
    funext p; dsimp [Prod.swap]; ring]

theorem zip_self_eq : ∀ xs : List ℚ, xs.zip xs = xs.map (fun x => (x, x))
  | [] => rfl
  | x :: xs => by rw [List.zip_cons_cons, List.map_cons, zip_self_eq]

theorem corrPair_self_isOne {xs : List ℚ} (h : 0 < (corrPair xs xs).num) :
    (corrPair xs xs).isOne := by
  refine ⟨h, ?_⟩
  show (corrPair xs xs).num ^ 2 = (corrPair xs xs).den2
  unfold corrPair
  dsimp only
  rw [zip_self_eq, List.map_map]
  rw [show ((fun p : ℚ × ℚ => (p.1 - meanQ xs) * (p.2 - meanQ xs)) ∘ fun x => (x, x)) =
      (fun x => (x - meanQ xs) ^ 2) from by funext x; dsimp; ring]
  ring

theorem r4_of_isOne {v : CorrVal} (h : v.isOne) : v.r4 = 1 := by
  obtain ⟨hpos, hsq⟩ := h
  have hkey : v.keyQ = 1 := by
    unfold CorrVal.keyQ
    rw [← hsq]
    exact div_self (pow_ne_zero 2 (ne_of_gt hpos))
  unfold CorrVal.r4 CorrVal.absR4 sqrtRound4
  rw [hkey]
  rw [if_neg (not_lt.mpr (le_of_lt hpos))]
  rw [show (10 : ℚ) ^ 8 * 1 = 100000000 from by norm_num]
  rw [show sqrtRoundInt 100000000 = 10000 from by decide]
  norm_num

theorem sigFold_mem (pOr : List ℚ → List ℚ → Option ℚ) (t : Table)
    (cols : List String) (ps : List (String × String)) :
    ∀ (acc : List (String × String) × List SigPair) (e : SigPair),
      e ∈ sigFold pOr t cols acc ps →
      e ∈ acc.2 ∨
        ((e.col1, e.col2) ∈ ps ∧
          ∃ p0, pOr (subsetCol t cols e.col1) (subsetCol t cols e.col2) = some p0 ∧
            p0 < CORRELATION_SIGNIFICANCE ∧ e.p = roundTo 6 p0 ∧
            e.corr = corrPair (subsetCol t cols e.col1) (subsetCol t cols e.col2)) := by
  induction ps with
  | nil => intro acc e h; exact Or.inl h
  | cons hd rest ih =>
      obtain ⟨c1, c2⟩ := hd
      intro acc e h
      rw [sigFold] at h
      by_cases hseen : (c1, c2) ∈ acc.1
      · rw [if_pos hseen] at h
        rcases ih acc e h with h0 | h1
        · exact Or.inl h0
        · exact Or.inr ⟨List.mem_cons_of_mem _ h1.1, h1.2⟩
      · rw [if_neg hseen] at h
        cases hp : pOr (subsetCol t cols c1) (subsetCol t cols c2) with
        | none =>
            rw [hp] at h
            rcases ih _ e h with h0 | h1
            · exact Or.inl h0
            · exact Or.inr ⟨List.mem_cons_of_mem _ h1.1, h1.2⟩
        | some p =>
            rw [hp] at h
            dsimp only at h
            by_cases hlt : p < CORRELATION_SIGNIFICANCE
            · rw [if_pos hlt] at h
              rcases ih _ e h with h0 | h1
              · rcases List.mem_append.mp h0 with ha | hb
                · exact Or.inl ha
                · rw [List.mem_singleton] at hb
                  subst hb
                  exact Or.inr ⟨List.mem_cons_self _ _, p, hp, hlt, rfl, rfl⟩
              · exact Or.inr ⟨List.mem_cons_of_mem _ h1.1, h1.2⟩
            · rw [if_neg hlt] at h
              rcases ih _ e h with h0 | h1
              · exact Or.inl h0
              · exact Or.inr ⟨List.mem_cons_of_mem _ h1.1, h1.2⟩

theorem mem_allPairs : ∀ {cols : List String} {a b : String}, (a, b) ∈ allPairs cols →
    a ∈ cols ∧ b ∈ cols ∧ (cols.Nodup → a ≠ b)
  | [], a, b, h => by cases h
  | c :: cs, a, b, h => by
      rw [allPairs] at h
      rcases List.mem_append.mp h with h1 | h2
      · rw [List.mem_map] at h1
        obtain ⟨c2, hc2, heq⟩ := h1
        rw [Prod.mk.injEq] at heq
        obtain ⟨rfl, rfl⟩ := heq
        refine ⟨List.mem_cons_self _ _, List.mem_cons_of_mem _ hc2, ?_⟩
        intro hnd hab
        exact (List.nodup_cons.mp hnd).1 (hab ▸ hc2)
      · obtain ⟨ha, hb, hne⟩ := mem_allPairs h2
        exact ⟨List.mem_cons_of_mem _ ha, List.mem_cons_of_mem _ hb,
          fun hnd => hne (List.nodup_cons.mp hnd).2⟩

instance : IsTotal SigPair (fun a b => b.corr.absR4 ≤ a.corr.absR4) :=
  ⟨fun a b => le_total _ _⟩

instance : IsTrans SigPair (fun a b => b.corr.absR4 ≤ a.corr.absR4) :=
  ⟨fun _ _ _ h1 h2 => le_trans h2 h1⟩

/-- Claim C4, counterexample: with two numeric columns one of which is
constant, the matrix diagonal entry of the constant column is NaN
(den2 = 0), not 1. -/
theorem C4_counterexample :
    2 ≤ (classify_columns exConstT).numeric.length ∧
      mLookup (correlation_matrix pOracle0 exConstT
          (classify_columns exConstT).numeric).matrix "a" "a" = some ⟨0, 0⟩ ∧
      ¬ (⟨0, 0⟩ : CorrVal).isOne :=
  ⟨by decide, by decide, by decide⟩

/-- Claim C4, amended (corrContract): the matrix is symmetric and its
diagonal entry is 1 for every column with positive variance on the
complete-case subset (NaN for zero variance); significant pairs join
distinct listed columns with oracle p-value below the threshold, and
the list is sorted descending by 4-decimal absolute correlation. -/
theorem C4_amended (pOr : List ℚ → List ℚ → Option ℚ) (t : Table)
    (cols : List String) (h2 : 2 ≤ cols.length) (hnd : cols.Nodup) :
    corrContract pOr t cols := by
  have hnot : ¬ cols.length < 2 := by omega
  have hmat : (correlation_matrix pOr t cols).matrix =
      cols.map (fun c1 =>
        (c1, cols.map (fun c2 => (c2, corrPair (subsetCol t cols c1) (subsetCol t cols c2))))) := by
    unfold correlation_matrix
    rw [if_neg hnot]
  have hsig : (correlation_matrix pOr t cols).significant_pairs =
      List.insertionSort (fun a b : SigPair => b.corr.absR4 ≤ a.corr.absR4)
        (sigFold pOr t cols ([], []) (allPairs cols)) := by
    unfold correlation_matrix
    rw [if_neg hnot]
  refine ⟨?_, ?_, ?_, ?_⟩
  · intro a ha b hb
    rw [hmat]
    refine ⟨mLookup_matrix _ cols ha hb, ?_⟩
    rw [mLookup_matrix _ cols ha hb, mLookup_matrix _ cols hb ha,
      corrPair_comm (subsetCol t cols b) (subsetCol t cols a)]
  · intro a ha hpos
    refine ⟨corrPair (subsetCol t cols a) (subsetCol t cols a), ?_, ?_, ?_⟩
    · rw [hmat]
      exact mLookup_matrix _ cols ha ha
    · exact corrPair_self_isOne hpos
    · exact r4_of_isOne (corrPair_self_isOne hpos)
  · intro e he
    rw [hsig, List.mem_insertionSort] at he
    rcases sigFold_mem pOr t cols (allPairs cols) ([], []) e he with h0 | h1
    · cases h0
    · obtain ⟨hpair, p0, hp0, hlt, hp6, -⟩ := h1
      obtain ⟨ha, hb, hne⟩ := mem_allPairs hpair
      exact ⟨ha, hb, hne hnd, p0, hp0, hlt, hp6⟩
  · rw [hsig]
    exact List.sorted_insertionSort _ _

/-- Witness for C4_amended at a concrete table. -/
theorem C4_amended_witness :
    2 ≤ (classify_columns exConstT).numeric.length ∧
      (classify_columns exConstT).numeric.Nodup ∧
      corrContract pOracle0 exConstT (classify_columns exConstT).numeric :=
  ⟨by decide, by decide, C4_amended pOracle0 exConstT _ (by decide) (by decide)⟩

/- Lemmas about each step's logging discipline (claims C8 and C1). -/

theorem std_log_iff (t : Table) :
    (standardize_columns t).2 ≠ [] ↔ (standardize_columns t).1 ≠ t := by
  unfold standardize_columns
  by_cases hc :
      (((t.cols.map Col.name).dedup).filter (fun n => stdName n != n)).isEmpty = true
  · rw [if_pos hc]
    simp
  · rw [if_neg hc]
    have hne : ((t.cols.map Col.name).dedup).filter (fun n => stdName n != n) ≠ [] := by
      intro h0
      rw [h0] at hc
      exact hc rfl
    obtain ⟨x, hx⟩ := List.exists_mem_of_ne_nil _ hne
    have hx2 := List.mem_filter.mp hx
    have hxname : x ∈ t.cols.map Col.name := List.mem_dedup.mp hx2.1
    have hxne : stdName x ≠ x := by simpa using hx2.2
    obtain ⟨c, hcmem, hcname⟩ := List.mem_map.mp hxname
    constructor
    · intro _ heq
      have hmapeq : t.cols.map (fun c => { c with name := stdName c.name }) = t.cols := by
        have := congrArg Table.cols heq
        simpa using this
      have := congrArg Col.name (map_eq_self hmapeq c hcmem)
      simp only at this
      rw [hcname] at this
      exact hxne this
    · intro _
      simp

theorem applyMask_length_le (m : List Bool) (vs : List Value) :
    (applyMask m vs).length ≤ vs.length := by
  unfold applyMask
  calc (((m.zip vs).filter (fun p => p.1)).map (fun p => p.2)).length
      = ((m.zip vs).filter (fun p => p.1)).length := List.length_map _ _
    _ ≤ (m.zip vs).length := List.length_filter_le _ _
    _ ≤ vs.length := by rw [List.length_zip]; omega

theorem applyMask_cons_true (m : List Bool) (v : Value) (vs : List Value) :
    applyMask (true :: m) (v :: vs) = v :: applyMask m vs := rfl

theorem applyMask_cons_false (m : List Bool) (v : Value) (vs : List Value) :
    applyMask (false :: m) (v :: vs) = applyMask m vs := rfl

theorem applyMask_full_all_true :
    ∀ (m : List Bool) (vs : List Value), m.length = vs.length →
      (applyMask m vs).length = vs.length → ∀ b ∈ m, b = true
  | [], _, _, _, b, hb => by cases hb
  | _ :: _, [], hlen, _, b, hb => by simp at hlen
  | b0 :: m, v :: vs, hlen, hfull, b, hb => by
      cases b0 with
      | true =>
          rw [applyMask_cons_true] at hfull
          rcases List.mem_cons.mp hb with rfl | hbm
          · rfl
          · exact applyMask_full_all_true m vs (by simpa using hlen)
              (by simpa using hfull) b hbm
      | false =>
          rw [applyMask_cons_false] at hfull
          have hle := applyMask_length_le m vs
          rw [List.length_cons] at hfull
          omega

theorem applyMask_all_true :
    ∀ (m : List Bool) (vs : List Value), (∀ b ∈ m, b = true) →
      vs.length ≤ m.length → applyMask m vs = vs
  | m, [], _, _ => by
      unfold applyMask
      rw [List.zip_nil_right]
      rfl
  | [], _ :: _, _, hlen => by simp at hlen
  | b :: m, v :: vs, hall, hlen => by
      have hb : b = true := hall b (List.mem_cons_self _ _)
      subst hb
      rw [applyMask_cons_true,
        applyMask_all_true m vs (fun x hx => hall x (List.mem_cons_of_mem _ hx))
          (by simpa using hlen)]

theorem firstOccMask_length :
    ∀ (seen rows : List (List Value)), (firstOccMask seen rows).length = rows.length
  | _, [] => rfl
  | seen, r :: rs => by
      rw [firstOccMask, List.length_cons, List.length_cons, firstOccMask_length]

theorem firstOccMask_all_true :
    ∀ (seen rows : List (List Value)), rows.Nodup → (∀ r ∈ rows, r ∉ seen) →
      ∀ b ∈ firstOccMask seen rows, b = true
  | _, [], _, _, b, hb => by cases hb
  | seen, r :: rs, hnd, hdisj, b, hb => by
      rw [firstOccMask] at hb
      rcases List.mem_cons.mp hb with rfl | hbm
      · simp [hdisj r (List.mem_cons_self _ _)]
      · exact firstOccMask_all_true (r :: seen) rs (List.nodup_cons.mp hnd).2
          (fun x hx hmem => by
            rcases List.mem_cons.mp hmem with h1 | h2
            · exact (List.nodup_cons.mp hnd).1 (h1 ▸ hx)
            · exact hdisj x (List.mem_cons_of_mem _ hx) h2)
          b hbm

theorem dedup_noop (t : Table) (hwf : t.wf) (hnd : t.noDupRows) :
    remove_duplicates t = (t, []) := by
  have hall : ∀ b ∈ firstOccMask [] t.rowsList, b = true :=
    firstOccMask_all_true [] t.rowsList hnd (fun r _ => List.not_mem_nil r)
  have hmlen : (firstOccMask [] t.rowsList).length = t.nrows := by
    rw [firstOccMask_length]
    unfold Table.rowsList
    rw [List.length_map, List.length_range]
  have hcols :
      t.cols.map (fun c => { c with vals := applyMask (firstOccMask [] t.rowsList) c.vals }) =
        t.cols := by
    have hpt : ∀ c ∈ t.cols,
        ({ c with vals := applyMask (firstOccMask [] t.rowsList) c.vals } : Col) = c := by
      intro c hc
      have : applyMask (firstOccMask [] t.rowsList) c.vals = c.vals :=
        applyMask_all_true _ _ hall (by rw [hmlen, hwf c hc])
      rw [this]
    calc t.cols.map (fun c => { c with vals := applyMask (firstOccMask [] t.rowsList) c.vals })
        = t.cols.map id := List.map_congr_left hpt
      _ = t.cols := List.map_id _
  simp only [remove_duplicates]
  rw [hcols]
  simp

theorem dedup_log_iff (t : Table) (hwf : t.wf) :
    (remove_duplicates t).2 ≠ [] ↔ (remove_duplicates t).1 ≠ t := by
  simp only [remove_duplicates]
  by_cases hrem :
      t.nrows - (⟨t.cols.map (fun c =>
        { c with vals := applyMask (firstOccMask [] t.rowsList) c.vals })⟩ : Table).nrows = 0
  · rw [if_pos hrem]
    constructor
    · intro h0
      exact absurd rfl h0
    · intro hne
      exfalso
      apply hne
      cases hcols : t.cols with
      | nil =>
          have : t = ⟨[]⟩ := by
            cases t with
            | mk cs => cases hcols; rfl
          rw [this]
          rfl
      | cons c0 rest =>
          have hm0 : (firstOccMask [] t.rowsList).length = t.nrows := by
            rw [firstOccMask_length]
            unfold Table.rowsList
            rw [List.length_map, List.length_range]
          have hn2 :
              (⟨t.cols.map (fun c =>
                { c with vals := applyMask (firstOccMask [] t.rowsList) c.vals })⟩ : Table).nrows =
                (applyMask (firstOccMask [] t.rowsList) c0.vals).length := by
            unfold Table.nrows
            rw [hcols]
            rfl
          have hc0len : c0.vals.length = t.nrows := hwf c0 (by rw [hcols]; exact List.mem_cons_self _ _)
          have hle : (applyMask (firstOccMask [] t.rowsList) c0.vals).length ≤ t.nrows := by
            calc (applyMask (firstOccMask [] t.rowsList) c0.vals).length
                ≤ c0.vals.length := applyMask_length_le _ _
              _ = t.nrows := hc0len
          have hfull : (applyMask (firstOccMask [] t.rowsList) c0.vals).length = c0.vals.length := by
            rw [hn2] at hrem
            omega
          have hall : ∀ b ∈ firstOccMask [] t.rowsList, b = true :=
            applyMask_full_all_true _ _ (by rw [hm0, hc0len]) hfull
          have hallcols : t.cols.map (fun c =>
              { c with vals := applyMask (firstOccMask [] t.rowsList) c.vals }) = t.cols := by
            have hpt : ∀ c ∈ t.cols,
                ({ c with vals := applyMask (firstOccMask [] t.rowsList) c.vals } : Col) = c := by
              intro c hc
              rw [applyMask_all_true _ _ hall (by rw [hm0, hwf c hc])]
            calc t.cols.map (fun c =>
                  { c with vals := applyMask (firstOccMask [] t.rowsList) c.vals })
                = t.cols.map id := List.map_congr_left hpt
              _ = t.cols := List.map_id _
          rw [← hcols, hallcols]
  · rw [if_neg hrem]
    constructor
    · intro _ heq
      apply hrem
      rw [heq]
      omega
    · intro _
      simp

theorem trim_log_iff (f : Value → String) (t : Table) :
    (trim_strings f t).2 ≠ [] ↔ ∃ c ∈ t.cols, c.dtype = Dtype.obj := by
  simp only [trim_strings]
  by_cases hn : (t.cols.filter (fun c => c.dtype == Dtype.obj)).length = 0
  · rw [if_pos hn]
    simp only [ne_eq, not_true_eq_false, false_iff]
    rw [List.length_eq_zero] at hn
    rintro ⟨c, hc, hd⟩
    have : c ∈ t.cols.filter (fun c => c.dtype == Dtype.obj) :=
      List.mem_filter.mpr ⟨hc, by simp [hd]⟩
    rw [hn] at this
    cases this
  · rw [if_neg hn]
    constructor
    · intro _
      have hne : t.cols.filter (fun c => c.dtype == Dtype.obj) ≠ [] := by
        intro h0
        rw [h0] at hn
        exact hn rfl
      obtain ⟨c, hc⟩ := List.exists_mem_of_ne_nil _ hne
      have := List.mem_filter.mp hc
      exact ⟨c, this.1, by simpa using this.2⟩
    · intro _
      simp

theorem trim_noop_of_noobj (f : Value → String) (t : Table)
    (h : ∀ c ∈ t.cols, c.dtype ≠ Dtype.obj) : (trim_strings f t).1 = t := by
  simp only [trim_strings]
  have hcols : t.cols.map (fun c =>
      if c.dtype == Dtype.obj then { c with vals := c.vals.map (trimCell f) } else c) =
      t.cols := by
    have hpt : ∀ c ∈ t.cols,
        (if c.dtype == Dtype.obj then { c with vals := c.vals.map (trimCell f) } else c) = c := by
      intro c hc
      rw [if_neg (by simpa using h c hc)]
    calc t.cols.map (fun c =>
          if c.dtype == Dtype.obj then { c with vals := c.vals.map (trimCell f) } else c)
        = t.cols.map id := List.map_congr_left hpt
      _ = t.cols := List.map_id _
  rw [hcols]

theorem trim_change_log (f : Value → String) (t : Table)
    (h : (trim_strings f t).1 ≠ t) : (trim_strings f t).2 ≠ [] := by
  rw [trim_log_iff]
  by_contra hno
  apply h
  apply trim_noop_of_noobj
  intro c hc hd
  exact hno ⟨c, hc, hd⟩

theorem imputeCol_silent (t : Table) (n : String) :
    (imputeCol t n).2 = [] → imputeCol t n = (t, []) := by
  unfold imputeCol
  dsimp only
  split
  · intro _; rfl
  · split
    · intro _; rfl
    · split
      · intro h; simp at h
      · split
        · intro h; simp at h
        · intro h; simp at h
      · split
        · intro _; rfl
        · intro h; simp at h

theorem imputeFold_log_shift (ns : List String) :
    ∀ (t : Table) (log : List LogEntry),
      imputeFold (t, log) ns = ((imputeFold (t, []) ns).1, log ++ (imputeFold (t, []) ns).2) := by
  induction ns with
  | nil => intro t log; simp [imputeFold]
  | cons n ns ih =>
      intro t log
      simp only [imputeFold]
      rw [ih (imputeCol t n).1 (log ++ (imputeCol t n).2),
        ih (imputeCol t n).1 ([] ++ (imputeCol t n).2)]
      simp [List.append_assoc]

theorem imputeFold_silent (ns : List String) :
    ∀ t : Table, (imputeFold (t, []) ns).2 = [] → (imputeFold (t, []) ns).1 = t := by
  induction ns with
  | nil => intro t _; rfl
  | cons n ns ih =>
      intro t h
      simp only [imputeFold] at h ⊢
      rw [imputeFold_log_shift ns (imputeCol t n).1 ([] ++ (imputeCol t n).2)] at h ⊢
      rw [List.nil_append] at h ⊢
      have h2 := List.append_eq_nil.mp h
      have hcol := imputeCol_silent t n h2.1
      have hc1 : (imputeCol t n).1 = t := by rw [hcol]
      rw [hc1] at h2 ⊢
      exact ih t h2.2

theorem handle_missing_silent (t : Table) (h : (handle_missing_values t).2 = []) :
    (handle_missing_values t).1 = t := by
  unfold handle_missing_values at h ⊢
  exact imputeFold_silent _ t h

theorem convertColStep_silent (po : Value → Option Date) (t : Table) (n : String) :
    (convertColStep po t n).2 = [] → convertColStep po t n = (t, []) := by
  unfold convertColStep
  dsimp only
  split
  · intro _; rfl
  · split
    · intro _; rfl
    · split
      · intro h; simp at h
      · intro _; rfl

theorem convertFold_log_shift (po : Value → Option Date) (ns : List String) :
    ∀ (t : Table) (names : List String),
      convertFold po (t, names) ns =
        ((convertFold po (t, []) ns).1, names ++ (convertFold po (t, []) ns).2) := by
  induction ns with
  | nil => intro t names; simp [convertFold]
  | cons n ns ih =>
      intro t names
      simp only [convertFold]
      rw [ih (convertColStep po t n).1 (names ++ (convertColStep po t n).2),
        ih (convertColStep po t n).1 ([] ++ (convertColStep po t n).2)]
      simp [List.append_assoc]

theorem convertFold_silent (po : Value → Option Date) (ns : List String) :
    ∀ t : Table, (convertFold po (t, []) ns).2 = [] → (convertFold po (t, []) ns).1 = t := by
  induction ns with
  | nil => intro t _; rfl
  | cons n ns ih =>
      intro t h
      simp only [convertFold] at h ⊢
      rw [convertFold_log_shift po ns (convertColStep po t n).1
        ([] ++ (convertColStep po t n).2)] at h ⊢
      rw [List.nil_append] at h ⊢
      have h2 := List.append_eq_nil.mp h
      have hcol := convertColStep_silent po t n h2.1
      have hc1 : (convertColStep po t n).1 = t := by rw [hcol]
      rw [hc1] at h2 ⊢
      exact ih t h2.2

theorem convert_silent (po : Value → Option Date) (t : Table)
    (h : (convert_dates po t).2 = []) : (convert_dates po t).1 = t := by
  unfold convert_dates at h ⊢
  dsimp only at h ⊢
  by_cases hc :
      (convertFold po (t, [])
        ((t.cols.filter (fun c => c.dtype == Dtype.obj)).map Col.name)).2.isEmpty = true
  · exact convertFold_silent po _ t (List.isEmpty_iff.mp hc)
  · rw [if_neg hc] at h
    cases h

theorem updateAssoc_ne_nil (l : List (String × Nat)) (k : String) (v : Nat) :
    updateAssoc l k v ≠ [] := by
  unfold updateAssoc
  split
  · intro h0
    rw [List.map_eq_nil] at h0
    subst h0
    simp_all
  · simp

theorem outlierStep_silent (acc : Table × List (String × Nat)) (n : String) :
    (outlierStep acc n).2 = [] → outlierStep acc n = acc ∧ acc.2 = [] := by
  unfold outlierStep
  dsimp only
  split
  · intro h; exact ⟨rfl, h⟩
  · split
    all_goals try (intro h; exact ⟨rfl, h⟩)
    split
    all_goals try (intro h; exact ⟨rfl, h⟩)
    split
    all_goals try (intro h; exact ⟨rfl, h⟩)
    intro h
    exact absurd h (updateAssoc_ne_nil _ _ _)

theorem outlierFold_silent (ns : List String) :
    ∀ acc : Table × List (String × Nat),
      (outlierFold acc ns).2 = [] → outlierFold acc ns = acc ∧ acc.2 = [] := by
  induction ns with
  | nil => intro acc h; exact ⟨rfl, h⟩
  | cons n ns ih =>
      intro acc h
      simp only [outlierFold] at h ⊢
      obtain ⟨hrest, hstep2⟩ := ih (outlierStep acc n) h
      obtain ⟨hstep, hacc2⟩ := outlierStep_silent acc n hstep2
      rw [hstep] at hrest ⊢
      exact ⟨hrest, hacc2⟩

theorem detect_outliers_silent (t : Table) (h : (detect_outliers t).2.1 = []) :
    (detect_outliers t).1 = t := by
  unfold detect_outliers at h ⊢
  dsimp only at h ⊢
  by_cases hc :
      (outlierFold (t, [])
        ((t.cols.filter (fun c => c.dtype == Dtype.numeric)).map Col.name)).2.isEmpty = true
  · have := (outlierFold_silent _ (t, []) (List.isEmpty_iff.mp hc)).1
    rw [this]
  · rw [if_neg hc] at h
    cases h

theorem datePartsFold_log_shift (ns : List String) :
    ∀ (t : Table) (log : List LogEntry),
      datePartsFold (t, log) ns =
        ((datePartsFold (t, []) ns).1, log ++ (datePartsFold (t, []) ns).2) := by
  induction ns with
  | nil => intro t log; simp [datePartsFold]
  | cons n ns ih =>
      intro t log
      simp only [datePartsFold]
      cases hf : t.findCol n with
      | none => exact ih t log
      | some c =>
          dsimp only
          rw [ih _ (log ++ [LogEntry.extractedDateParts n]),
            ih _ ([] ++ [LogEntry.extractedDateParts n])]
          simp [List.append_assoc]

theorem datePartsFold_silent (ns : List String) :
    ∀ t : Table, (datePartsFold (t, []) ns).2 = [] → (datePartsFold (t, []) ns).1 = t := by
  induction ns with
  | nil => intro t _; rfl
  | cons n ns ih =>
      intro t h
      simp only [datePartsFold] at h ⊢
      cases hf : t.findCol n with
      | none =>
          rw [hf] at h
          dsimp only at h
          exact ih t h
      | some c =>
          rw [hf] at h
          dsimp only at h
          rw [datePartsFold_log_shift ns _ ([] ++ [LogEntry.extractedDateParts n])] at h
          simp at h

theorem pricePerUnit_silent (t : Table) :
    (pricePerUnit t).2 = [] → (pricePerUnit t).1 = t := by
  unfold pricePerUnit
  dsimp only
  split
  all_goals try (intro _; rfl)
  split
  all_goals try (intro _; rfl)
  split
  · intro h; simp at h
  · intro _; rfl

theorem feature_silent (t : Table) (h : (feature_engineering t).2 = []) :
    (feature_engineering t).1 = t := by
  unfold feature_engineering at h ⊢
  dsimp only at h ⊢
  have h12 := List.append_eq_nil.mp h
  have h1 := datePartsFold_silent _ t h12.1
  rw [h1] at h12 ⊢
  exact pricePerUnit_silent t h12.2

theorem validate_silent (t : Table) :
    (validate_output t).2 = [] → (validate_output t).1 = t := by
  unfold validate_output
  dsimp only
  split
  · intro _; rfl
  · intro h; simp at h

/-- Claim C8, amended (stepLogContract): no step changes the table
silently; standardisation and duplicate removal log exactly when they
change the table; trimming logs exactly when an object column exists;
storage optimisation always logs once. -/
theorem C8_amended (f : Value → String) (po : Value → Option Date) (t : Table)
    (hwf : t.wf) : stepLogContract f po t := by
  refine ⟨std_log_iff t, dedup_log_iff t hwf, trim_log_iff f t, trim_change_log f t,
    ?_, ?_, ?_, ?_, ?_, rfl⟩
  · exact fun hch h0 => hch (handle_missing_silent t h0)
  · exact fun hch h0 => hch (convert_silent po t h0)
  · exact fun hch h0 => hch (detect_outliers_silent t h0)
  · exact fun hch h0 => hch (feature_silent t h0)
  · exact fun hch h0 => hch (validate_silent t h0)

/-- Witness for C8_amended at a concrete table. -/
theorem C8_amended_witness :
    exCleanT.wf ∧ stepLogContract strOracle0 dateOracle0 exCleanT :=
  ⟨by decide, C8_amended strOracle0 dateOracle0 exCleanT (by decide)⟩

/- ------------------------------------------------------------------
Claim C1: idempotence of the cleaning run on clean data.  Renaming a
table (sameData) preserves all cleanliness facts; each cleaning step is
then a no-op on clean data, and every remaining step only emits log
entries outside the dedup / impute / outlier classes.
------------------------------------------------------------------- -/

theorem forall₂_mem_right {α : Type} {R : α → α → Prop} {l1 l2 : List α}
    (h : List.Forall₂ R l1 l2) : ∀ b ∈ l2, ∃ a ∈ l1, R a b := by
  induction h with
  | nil => intro b hb; cases hb
  | cons hr _ ih =>
      intro b hb
      rcases List.mem_cons.mp hb with rfl | hb2
      · exact ⟨_, List.mem_cons_self _ _, hr⟩
      · obtain ⟨a, ha, har⟩ := ih b hb2
        exact ⟨a, List.mem_cons_of_mem _ ha, har⟩

theorem forall₂_map_self {α : Type} {R : α → α → Prop} {g : α → α} :
    ∀ l : List α, (∀ a ∈ l, R a (g a)) → List.Forall₂ R l (l.map g)
  | [], _ => List.Forall₂.nil
  | a :: l, h =>
      List.Forall₂.cons (h a (List.mem_cons_self a l))
        (forall₂_map_self l (fun b hb => h b (List.mem_cons_of_mem a hb)))

theorem sameData_std (t : Table) : sameData t (standardize_columns t).1 := by
  unfold sameData
  simp only [standardize_columns]
  split
  · exact List.forall₂_same.mpr (fun c _ => ⟨rfl, rfl⟩)
  · exact forall₂_map_self _ (fun c _ => ⟨rfl, rfl⟩)

theorem forall₂_head_vals {l1 l2 : List Col}
    (h : List.Forall₂ (fun c c2 => c.dtype = c2.dtype ∧ c.vals = c2.vals) l1 l2) :
    (Table.mk l2).nrows = (Table.mk l1).nrows := by
  cases h with
  | nil => rfl
  | cons hr _ =>
      unfold Table.nrows
      dsimp only
      rw [hr.2]

theorem sameData_nrows {t t2 : Table} (h : sameData t t2) : t2.nrows = t.nrows :=
  forall₂_head_vals h

theorem forall₂_rowAt {l1 l2 : List Col}
    (h : List.Forall₂ (fun c c2 => c.dtype = c2.dtype ∧ c.vals = c2.vals) l1 l2)
    (i : Nat) : (Table.mk l2).rowAt i = (Table.mk l1).rowAt i := by
  unfold Table.rowAt
  dsimp only
  induction h with
  | nil => rfl
  | cons hr htl ih =>
      simp only [List.map_cons]
      rw [ih, hr.2]

theorem sameData_rowsList {t t2 : Table} (h : sameData t t2) :
    t2.rowsList = t.rowsList := by
  unfold Table.rowsList
  rw [sameData_nrows h]
  exact List.map_congr_left (fun i _ => forall₂_rowAt h i)

theorem sameData_wf {t t2 : Table} (h : sameData t t2) (hwf : t.wf) : t2.wf := by
  intro c2 hc2
  obtain ⟨c, hc, _, hvals⟩ := forall₂_mem_right h c2 hc2
  rw [sameData_nrows h, ← hvals]
  exact hwf c hc

theorem sameData_noMissing {t t2 : Table} (h : sameData t t2)
    (hnm : t.noMissing) : t2.noMissing := by
  intro c2 hc2 v hv
  obtain ⟨c, hc, _, hvals⟩ := forall₂_mem_right h c2 hc2
  exact hnm c hc v (by rw [hvals]; exact hv)

theorem sameData_noDup {t t2 : Table} (h : sameData t t2)
    (hnd : t.noDupRows) : t2.noDupRows := by
  unfold Table.noDupRows at hnd ⊢
  rw [sameData_rowsList h]
  exact hnd

theorem colNoOutlierTrig_congr {c c2 : Col} (h : c.vals = c2.vals) :
    colNoOutlierTrig c2 = colNoOutlierTrig c := by
  unfold colNoOutlierTrig
  rw [h]

theorem sameData_trig {t t2 : Table} (h : sameData t t2)
    (hno : t.noOutlierTrig) : t2.noOutlierTrig := by
  intro c2 hc2 hdty
  obtain ⟨c, hc, hdt, hvals⟩ := forall₂_mem_right h c2 hc2
  rw [colNoOutlierTrig_congr hvals]
  exact hno c hc (hdt.trans hdty)

theorem sameData_trimFixed (f : Value → String) {t t2 : Table} (h : sameData t t2)
    (htr : (trim_strings f t).1 = t) : (trim_strings f t2).1 = t2 := by
  have hcols0 := congrArg Table.cols htr
  simp only [trim_strings] at hcols0
  have hmap : t2.cols.map (fun c =>
      if c.dtype == Dtype.obj then { c with vals := c.vals.map (trimCell f) } else c) =
        t2.cols := by
    have hpt2 : ∀ c2 ∈ t2.cols,
        (fun c => if c.dtype == Dtype.obj then
            { c with vals := c.vals.map (trimCell f) } else c) c2 = c2 := by
      intro c2 hc2
      dsimp only
      obtain ⟨c, hc, hdt, hvals⟩ := forall₂_mem_right h c2 hc2
      have hgc := map_eq_self hcols0 c hc
      by_cases hobj : (c2.dtype == Dtype.obj) = true
      · have hobjc : (c.dtype == Dtype.obj) = true := by rw [hdt]; exact hobj
        rw [if_pos hobjc] at hgc
        have hmv : c.vals.map (trimCell f) = c.vals := congrArg Col.vals hgc
        rw [if_pos hobj, ← hvals, hmv, hvals]
      · rw [if_neg hobj]
    calc t2.cols.map (fun c =>
          if c.dtype == Dtype.obj then { c with vals := c.vals.map (trimCell f) } else c)
        = t2.cols.map id := List.map_congr_left hpt2
      _ = t2.cols := List.map_id _
  simp only [trim_strings]
  rw [hmap]

theorem imputeCol_noop {t : Table} (hnm : t.noMissing) (n : String) :
    imputeCol t n = (t, []) := by
  unfold imputeCol
  cases hf : t.findCol n with
  | none => rfl
  | some c =>
      have hc : c ∈ t.cols := List.mem_of_find?_eq_some hf
      have h0 : c.vals.countP Value.isMissingB = 0 := by
        rw [List.countP_eq_zero]
        intro v hv
        have hne := hnm c hc v hv
        cases v <;> simp_all [Value.isMissingB]
      dsimp only
      rw [if_pos h0]

theorem imputeFold_noop {t : Table} (hnm : t.noMissing) (ns : List String) :
    imputeFold (t, []) ns = (t, []) := by
  induction ns with
  | nil => rfl
  | cons n ns ih =>
      simp only [imputeFold]
      rw [imputeCol_noop hnm n]
      simpa using ih

theorem handle_missing_noop (t : Table) (hnm : t.noMissing) :
    handle_missing_values t = (t, []) := by
  unfold handle_missing_values
  exact imputeFold_noop hnm _

theorem convertColStep_names (po : Value → Option Date) (t : Table) (n : String) :
    (convertColStep po t n).1.cols.map Col.name = t.cols.map Col.name := by
  unfold convertColStep
  cases hf : t.findCol n with
  | none => rfl
  | some c =>
      dsimp only
      split
      · rfl
      · split
        · rw [List.map_map]
          apply List.map_congr_left
          intro c2 _
          simp only [Function.comp_apply]
          split
          · rfl
          · rfl
        · rfl

theorem convertColStep_numeric_mem (po : Value → Option Date) (t : Table) (n : String) :
    ∀ c2 ∈ (convertColStep po t n).1.cols, c2.dtype = Dtype.numeric → c2 ∈ t.cols := by
  intro c2 hc2 hdty
  unfold convertColStep at hc2
  cases hf : t.findCol n with
  | none => rw [hf] at hc2; exact hc2
  | some c =>
      rw [hf] at hc2
      dsimp only at hc2
      split at hc2
      · exact hc2
      · split at hc2
        · obtain ⟨c0, hc0, hgc⟩ := List.mem_map.mp hc2
          by_cases hcn : (c0.name == n) = true
          · rw [if_pos hcn] at hgc
            subst hgc
            simp at hdty
          · rw [if_neg hcn] at hgc
            exact hgc ▸ hc0
        · exact hc2

theorem convertFold_names (po : Value → Option Date) (ns : List String) :
    ∀ acc : Table × List String,
      (convertFold po acc ns).1.cols.map Col.name = acc.1.cols.map Col.name := by
  induction ns with
  | nil => intro acc; rfl
  | cons n ns ih =>
      intro acc
      simp only [convertFold]
      rw [ih, convertColStep_names]

theorem convertFold_numeric_mem (po : Value → Option Date) (ns : List String) :
    ∀ (acc : Table × List String) (c2 : Col), c2 ∈ (convertFold po acc ns).1.cols →
      c2.dtype = Dtype.numeric → c2 ∈ acc.1.cols := by
  induction ns with
  | nil => intro acc c2 hm _; exact hm
  | cons n ns ih =>
      intro acc c2 hm hdty
      simp only [convertFold] at hm
      exact convertColStep_numeric_mem po acc.1 n c2
        (ih ((convertColStep po acc.1 n).1, acc.2 ++ (convertColStep po acc.1 n).2)
          c2 hm hdty) hdty

theorem convert_dates_names (po : Value → Option Date) (t : Table) :
    (convert_dates po t).1.cols.map Col.name = t.cols.map Col.name := by
  simp only [convert_dates]
  exact convertFold_names po _ (t, [])

theorem convert_dates_numeric_mem (po : Value → Option Date) (t : Table) :
    ∀ c2 ∈ (convert_dates po t).1.cols, c2.dtype = Dtype.numeric → c2 ∈ t.cols := by
  intro c2 hm hdty
  simp only [convert_dates] at hm
  exact convertFold_numeric_mem po _ (t, []) c2 hm hdty

theorem find?_name_of_nodup :
    ∀ cols : List Col, (cols.map Col.name).Nodup → ∀ c ∈ cols,
      cols.find? (fun x => x.name == c.name) = some c := by
  intro cols
  induction cols with
  | nil => intro _ c hc; cases hc
  | cons d cols ih =>
      intro hnd c hc
      rw [List.map_cons, List.nodup_cons] at hnd
      rcases List.mem_cons.mp hc with rfl | hmem
      · simp [List.find?]
      · have hne : (d.name == c.name) = false := by
          apply beq_eq_false_iff_ne.mpr
          intro heq
          exact hnd.1 (heq ▸ List.mem_map_of_mem Col.name hmem)
        simpa [List.find?, hne] using ih hnd.2 c hmem

theorem findCol_of_nodup {t : Table} (hnd : (t.cols.map Col.name).Nodup) {c : Col}
    (hc : c ∈ t.cols) : t.findCol c.name = some c :=
  find?_name_of_nodup t.cols hnd c hc

theorem outlierStep_noop {t : Table} {cs : List (String × Nat)}
    (hnd : (t.cols.map Col.name).Nodup) (hno : t.noOutlierTrig) {n : String}
    (hcn : ∃ c ∈ t.cols, c.name = n ∧ c.dtype = Dtype.numeric) :
    outlierStep (t, cs) n = (t, cs) := by
  obtain ⟨c, hcm, hcname, hcd⟩ := hcn
  have hfind : t.findCol n = some c := hcname ▸ findCol_of_nodup hnd hcm
  have htrig := hno c hcm hcd
  unfold colNoOutlierTrig at htrig
  dsimp only at htrig
  unfold outlierStep
  dsimp only
  rw [hfind]
  dsimp only
  split
  · rename_i q1 q3 hq1 hq3
    rw [hq1, hq3] at htrig
    dsimp only at htrig
    simp only [Bool.or_eq_true, decide_eq_true_eq, beq_iff_eq] at htrig
    by_cases hiqr : q3 - q1 = 0
    · rw [if_pos hiqr]
    · rcases htrig with hz | hcnt
      · exact absurd hz hiqr
      · rw [if_neg hiqr]
        have hcount : (c.vals.map (outlierCell (q1 - IQR_MULTIPLIER * (q3 - q1))
            (q3 + IQR_MULTIPLIER * (q3 - q1)))).countP (fun b => b) = 0 := by
          rw [List.countP_map]
          exact hcnt
        rw [if_pos hcount]
  · rfl

theorem outlierFold_noop {t : Table} (hnd : (t.cols.map Col.name).Nodup)
    (hno : t.noOutlierTrig) (ns : List String)
    (hns : ∀ n ∈ ns, ∃ c ∈ t.cols, c.name = n ∧ c.dtype = Dtype.numeric) :
    ∀ cs, outlierFold (t, cs) ns = (t, cs) := by
  induction ns with
  | nil => intro cs; rfl
  | cons n ns ih =>
      intro cs
      simp only [outlierFold]
      rw [outlierStep_noop hnd hno (hns n (List.mem_cons_self n ns))]
      exact ih (fun m hm => hns m (List.mem_cons_of_mem n hm)) cs

theorem detect_outliers_noop (t : Table) (hnd : (t.cols.map Col.name).Nodup)
    (hno : t.noOutlierTrig) : detect_outliers t = (t, [], []) := by
  have hns : ∀ n ∈ (t.cols.filter (fun c => c.dtype == Dtype.numeric)).map Col.name,
      ∃ c ∈ t.cols, c.name = n ∧ c.dtype = Dtype.numeric := by
    intro n hn
    obtain ⟨c, hcf, hname⟩ := List.mem_map.mp hn
    have hm := List.mem_filter.mp hcf
    exact ⟨c, hm.1, hname, by simpa using hm.2⟩
  simp only [detect_outliers]
  rw [outlierFold_noop hnd hno _ hns []]
  rfl

theorem noReCleanLogs_nil : noReCleanLogs [] := by
  intro e he
  cases he

theorem noReCleanLogs_append {l1 l2 : List LogEntry}
    (h1 : noReCleanLogs l1) (h2 : noReCleanLogs l2) : noReCleanLogs (l1 ++ l2) := by
  intro e he
  rcases List.mem_append.mp he with hm | hm
  · exact h1 e hm
  · exact h2 e hm

theorem std_logs_ok (t : Table) : noReCleanLogs (standardize_columns t).2 := by
  simp only [standardize_columns]
  split
  · exact noReCleanLogs_nil
  · intro e he
    cases he with
    | head => exact ⟨rfl, rfl, rfl⟩
    | tail _ hm => cases hm

theorem trim_logs_ok (f : Value → String) (t : Table) :
    noReCleanLogs (trim_strings f t).2 := by
  simp only [trim_strings]
  split
  · exact noReCleanLogs_nil
  · intro e he
    cases he with
    | head => exact ⟨rfl, rfl, rfl⟩
    | tail _ hm => cases hm

theorem convert_logs_ok (po : Value → Option Date) (t : Table) :
    noReCleanLogs (convert_dates po t).2 := by
  simp only [convert_dates]
  split
  · exact noReCleanLogs_nil
  · intro e he
    cases he with
    | head => exact ⟨rfl, rfl, rfl⟩
    | tail _ hm => cases hm

theorem datePartsFold_logs_ok (ns : List String) :
    ∀ (t : Table) (log : List LogEntry), noReCleanLogs log →
      noReCleanLogs (datePartsFold (t, log) ns).2 := by
  induction ns with
  | nil => intro t log hl; exact hl
  | cons n ns ih =>
      intro t log hl
      simp only [datePartsFold]
      cases hf : t.findCol n with
      | none => exact ih t log hl
      | some c =>
          dsimp only
          refine ih _ _ (noReCleanLogs_append hl ?_)
          intro e he
          cases he with
          | head => exact ⟨rfl, rfl, rfl⟩
          | tail _ hm => cases hm

theorem pricePerUnit_logs_ok (t : Table) : noReCleanLogs (pricePerUnit t).2 := by
  unfold pricePerUnit
  dsimp only
  repeat' split
  all_goals first
    | exact noReCleanLogs_nil
    | (intro e he
       cases he with
       | head => exact ⟨rfl, rfl, rfl⟩
       | tail _ hm => cases hm)

theorem feature_logs_ok (t : Table) : noReCleanLogs (feature_engineering t).2 := by
  simp only [feature_engineering]
  exact noReCleanLogs_append (datePartsFold_logs_ok _ t [] noReCleanLogs_nil)
    (pricePerUnit_logs_ok _)

theorem validate_logs_ok (t : Table) : noReCleanLogs (validate_output t).2 := by
  simp only [validate_output]
  split
  · exact noReCleanLogs_nil
  · intro e he
    cases he with
    | head => exact ⟨rfl, rfl, rfl⟩
    | tail _ hm => cases hm

theorem optLog_ok : noReCleanLogs [LogEntry.optimizedDtypes] := by
  intro e he
  cases he with
  | head => exact ⟨rfl, rfl, rfl⟩
  | tail _ hm => cases hm

theorem clean_run_logs (f : Value → String) (po : Value → Option Date) (t : Table)
    (hwf : t.wf) (hnm : t.noMissing) (hnd : t.noDupRows) (hno : t.noOutlierTrig)
    (htr : (trim_strings f t).1 = t)
    (hnames : ((standardize_columns t).1.cols.map Col.name).Nodup) :
    noReCleanLogs (run f po t).2 := by
  have hsd : sameData t (standardize_columns t).1 := sameData_std t
  have h2wf : (standardize_columns t).1.wf := sameData_wf hsd hwf
  have h2nm : (standardize_columns t).1.noMissing := sameData_noMissing hsd hnm
  have h2nd : (standardize_columns t).1.noDupRows := sameData_noDup hsd hnd
  have h2no : (standardize_columns t).1.noOutlierTrig := sameData_trig hsd hno
  have h2tr : (trim_strings f (standardize_columns t).1).1 = (standardize_columns t).1 :=
    sameData_trimFixed f hsd htr
  have h5names :
      ((convert_dates po (standardize_columns t).1).1.cols.map Col.name).Nodup := by
    rw [convert_dates_names]
    exact hnames
  have h5no : (convert_dates po (standardize_columns t).1).1.noOutlierTrig :=
    fun c hc hdty => h2no c (convert_dates_numeric_mem po _ c hc hdty) hdty
  simp only [run]
  rw [h2tr, dedup_noop _ h2wf h2nd]
  dsimp only
  rw [handle_missing_noop _ h2nm]
  dsimp only
  rw [detect_outliers_noop _ h5names h5no]
  dsimp only
  simp only [optimize_dtypes]
  exact noReCleanLogs_append (noReCleanLogs_append (noReCleanLogs_append
    (noReCleanLogs_append (noReCleanLogs_append (noReCleanLogs_append
      (noReCleanLogs_append (noReCleanLogs_append (std_logs_ok t) (trim_logs_ok f _))
        noReCleanLogs_nil) noReCleanLogs_nil) (convert_logs_ok po _)) noReCleanLogs_nil)
          optLog_ok) (feature_logs_ok _)) (validate_logs_ok _)

/-- Claim C1 (corrected): a second pipeline run on the output of a first
run appends no duplicate-removal, imputation, or outlier-detection log
entries, provided that output is genuinely clean: no missing cells, no
duplicate rows, no numeric column with an active IQR outlier trigger,
text fields already in normalized form, and pairwise-distinct
standardized column names.  (The unconditional claim fails:
C1_counterexample exhibits a clean run whose output still carries an
IQR outlier, so the second run logs outlier detection again.) -/
theorem C1_amended (f : Value → String) (po : Value → Option Date) (t0 : Table)
    (hwf : (run f po t0).1.wf) (hnm : (run f po t0).1.noMissing)
    (hnd : (run f po t0).1.noDupRows) (hno : (run f po t0).1.noOutlierTrig)
    (htr : (trim_strings f (run f po t0).1).1 = (run f po t0).1)
    (hnames : ((standardize_columns (run f po t0).1).1.cols.map Col.name).Nodup) :
    noReCleanLogs (run f po (run f po t0).1).2 :=
  clean_run_logs f po (run f po t0).1 hwf hnm hnd hno htr hnames

/-- Witness for C1_amended: the clean one-column numeric table satisfies
every hypothesis after a first run. -/
theorem C1_amended_witness :
    ((run strOracle0 dateOracle0 exCleanT).1.wf ∧
      (run strOracle0 dateOracle0 exCleanT).1.noMissing ∧
      (run strOracle0 dateOracle0 exCleanT).1.noDupRows ∧
      (run strOracle0 dateOracle0 exCleanT).1.noOutlierTrig ∧
      (trim_strings strOracle0 (run strOracle0 dateOracle0 exCleanT).1).1 =
        (run strOracle0 dateOracle0 exCleanT).1 ∧
      ((standardize_columns
          (run strOracle0 dateOracle0 exCleanT).1).1.cols.map Col.name).Nodup) ∧
    noReCleanLogs (run strOracle0 dateOracle0 (run strOracle0 dateOracle0 exCleanT).1).2 :=
  ⟨⟨by decide, by decide, by decide, by decide, by decide, by decide⟩,
    C1_amended strOracle0 dateOracle0 exCleanT (by decide) (by decide) (by decide)
      (by decide) (by decide) (by decide)⟩

end SmartCSV
